import Mathlib

/-!
# ipcounter: presence bitmap and parallel file loader

A shallow embedding of `internal/ip/storage/counter.go` and
`internal/ip/loader/loader.go`, followed by the properties established about them.

Conventions of the embedding.

* A `uint32` address and a `uint64` bitmap word are natural numbers; the bounds
  `ip < 2 ^ 32` appear as hypotheses where they matter. No operation of `Add` can
  overflow a 64-bit word (`1 <<< (ip % 64) < 2 ^ 64`).
* The bitmap `[]atomic.Uint64` is a list of words. `Add` is embedded for one
  thread of execution: the `CompareAndSwap` then compares the word with the value
  loaded just before, so it succeeds in the first iteration of the retry loop.
  Indexing past the end of the slice is a run-time panic, embedded as `none`.
  Concurrent calls of `Add` are embedded as interleavings of the atomic `Load` and
  `CompareAndSwap` steps of the goroutines (`stepRoutine`, `runSchedule`).
* A file is the list of its bytes. In `Do`, `processBatch` and `scan` reads do not
  fail other than by end of file and the per-worker `os.Open` succeeds. `DoFaulty`,
  `processBatchFaulty` and `scanFaulty` embed the same code with its two failure returns
  (the `os.Open` of a worker fails; a read fails with an error other than `io.EOF`),
  given the I/O faults each worker meets (`WorkerFaults`).
* The storage backend of the loader is the interface `storage`; a worker is
  embedded as the list of values it passes to `Add`, in order. The worker count
  is a natural number and sizes stay far below `2 ^ 63`, so no `int64` wraps.
* `net.ParseIP(..).To4()` followed by `binary.BigEndian.Uint32` belongs to the
  standard library; the loader takes it as the parameter `parse`. `ParseIP` below
  embeds its dotted-decimal branch (`netip.parseIPv4Fields`) and takes its IPv6
  branch as the parameter `v6`.
* An `error` is a value of `GoError`; `os.Open` and `file.Stat` are inputs of `Do`
  through `File`.
-/

namespace Ipcounter

/-! ## internal/ip/storage/counter.go -/

namespace Storage

/-- Number of one bits of a 64-bit word (`bits.OnesCount64`). -/
def OnesCount64 (x : Nat) : Nat :=
  ((List.range 64).filter (fun b => x.testBit b)).length

end Storage

/-- Storage holds a bitmap that records which IPv4 addresses have been seen. -/
structure Storage where
  /-- The words of the bitmap, each below `2 ^ 64`. -/
  bitmap : List Nat
deriving DecidableEq, Repr

namespace Storage

/-- New allocates a Storage of `1<<32/64` zero words. -/
def New : Storage :=
  ⟨List.replicate ((1 <<< 32) / 64) 0⟩

/-- The zero value `var storage Storage`: a nil bitmap. -/
def zeroValue : Storage :=
  ⟨[]⟩

/-- One call of `Add`, with the indices of the words it wrote (one entry for the
successful `CompareAndSwap`, none when the bit was found set). The result is
`none` when `idx` is outside the bitmap. -/
def AddW (h : Storage) (ip : Nat) : Option (Storage × List Nat) :=
  let idx := ip / 64
  let mask := 1 <<< (ip % 64)
  match h.bitmap[idx]? with
  | none => none
  | some cur =>
    if cur &&& mask ≠ 0 then some (h, [])
    else some (⟨h.bitmap.set idx (cur ||| mask)⟩, [idx])

/-- Add marks the provided IPv4 address as seen. -/
def Add (h : Storage) (ip : Nat) : Option Storage :=
  (AddW h ip).map Prod.fst

/-- GetUniqueCount sums the one bits of every word of the bitmap. -/
def GetUniqueCount (h : Storage) : Nat :=
  (h.bitmap.map OnesCount64).sum

/-- A sequence of `Add` calls, one after another. -/
def AddAll : Storage → List Nat → Option Storage
  | h, [] => some h
  | h, ip :: ips => (Add h ip).bind (fun h1 => AddAll h1 ips)

/-- Whether bit `b` of word `w` of the bitmap is set (an absent word has no bit set). -/
def bitSet (h : Storage) (w b : Nat) : Bool :=
  (h.bitmap.getD w 0).testBit b

/-- A goroutine that calls `Add` on the addresses of `pending`, one call after the
other. In its current call it is about to `Load` (`loaded = none`), or it has loaded
`cur` without finding the bit set and is about to `CompareAndSwap`
(`loaded = some cur`). -/
structure Goroutine where
  pending : List Nat
  loaded : Option Nat
deriving DecidableEq, Repr

/-- A state of a concurrent run: the shared Storage and the goroutines. -/
structure RunState where
  storage : Storage
  routines : List Goroutine
deriving DecidableEq, Repr

/-- One atomic step of a goroutine inside `Add`: the `Load` with the test of the bit,
or the `CompareAndSwap`; a failed `CompareAndSwap` goes back to the `Load`. There is
no step (`none`) when all its calls have returned or the index is out of range. -/
def stepRoutine (h : Storage) (g : Goroutine) : Option (Storage × Goroutine) :=
  match g.pending with
  | [] => none
  | ip :: rest =>
    let idx := ip / 64
    let mask := 1 <<< (ip % 64)
    match h.bitmap[idx]? with
    | none => none
    | some word =>
      match g.loaded with
      | none =>
        if word &&& mask ≠ 0 then some (h, ⟨rest, none⟩)
        else some (h, ⟨ip :: rest, some word⟩)
      | some cur =>
        if word = cur then some (⟨h.bitmap.set idx (cur ||| mask)⟩, ⟨rest, none⟩)
        else some (h, ⟨ip :: rest, none⟩)

/-- The step of goroutine number `i` in a run. -/
def step (r : RunState) (i : Nat) : Option RunState :=
  match r.routines[i]? with
  | none => none
  | some g => (stepRoutine r.storage g).map (fun p => ⟨p.1, r.routines.set i p.2⟩)

/-- An interleaving: `sched` lists, step by step, the goroutine that moves. -/
def runSchedule : RunState → List Nat → Option RunState
  | r, [] => some r
  | r, i :: sched => (step r i).bind (fun r1 => runSchedule r1 sched)

/-- The start of a run: goroutine `j` is to add the addresses `calls[j]`. -/
def startRun (h : Storage) (calls : List (List Nat)) : RunState :=
  ⟨h, calls.map (fun l => ⟨l, none⟩)⟩

/-- Whether every call of every goroutine has returned. -/
def allReturned (r : RunState) : Bool :=
  r.routines.all (fun g => g.pending.isEmpty)

/-- The invariant of a concurrent run over the addresses `A` and a bitmap of `L`
words: only bits of addresses of `A` are set, every address of `A` has its bit set or
is still pending in some goroutine, and pending addresses are in `A` and in range. -/
def RunInv (L : Nat) (A : List Nat) (r : RunState) : Prop :=
  r.storage.bitmap.length = L ∧
  (∀ w b, bitSet r.storage w b = true → ∃ a ∈ A, a / 64 = w ∧ a % 64 = b) ∧
  (∀ a ∈ A, bitSet r.storage (a / 64) (a % 64) = true ∨
    ∃ (j : Nat) (g : Goroutine), r.routines[j]? = some g ∧ a ∈ g.pending) ∧
  (∀ (j : Nat) (g : Goroutine), r.routines[j]? = some g →
    ∀ a ∈ g.pending, a ∈ A ∧ a / 64 < L)

end Storage

/-! ## internal/ip/loader/loader.go -/

namespace Loader

/-- Bytes of an ASCII text. -/
def bytes (s : String) : List UInt8 :=
  s.toList.map (fun c => UInt8.ofNat c.toNat)

/-- The call `reader.ReadBytes(10)` on the unread rest of the file: the bytes up to
and including the first newline, the rest after them, and whether end of file was
reached before a newline (`err == io.EOF`). -/
def ReadBytes : List UInt8 → List UInt8 × List UInt8 × Bool
  | [] => ([], [], true)
  | c :: rest =>
    if c = 10 then ([c], rest, false)
    else
      let r := ReadBytes rest
      (c :: r.1, r.2.1, r.2.2)

/-- The call `strings.TrimSuffix(line, "\n")`. -/
def TrimSuffix (line : List UInt8) : List UInt8 :=
  if line.getLast? = some 10 then line.dropLast else line

/-- The loop `for pos < end` of `processBatch`, on the unread rest `rd` of the file;
the result lists the values passed to `Add`. One unit of `fuel` is one iteration;
`none` means the fuel ran out before the loop ended. -/
def scan (parse : List UInt8 → Option Nat) :
    Nat → Nat → Nat → List UInt8 → Option (List Nat)
  | 0, _, _, _ => none
  | fuel + 1, pos, stop, rd =>
    if pos < stop then
      let r := ReadBytes rd
      if r.2.2 = true ∧ r.1.length = 0 then some []
      else
        match parse (TrimSuffix r.1) with
        | none => scan parse fuel (pos + r.1.length) stop r.2.1
        | some ip =>
          if r.2.2 = true then some [ip]
          else (scan parse fuel (pos + r.1.length) stop r.2.1).map (fun l => ip :: l)
    else some []

/-- The reader of a worker when its loop starts: the file from offset `start`,
less a first `ReadBytes` when `start != 0`. -/
def seekAndAlign (content : List UInt8) (start : Nat) : List UInt8 :=
  if start ≠ 0 then (ReadBytes (content.drop start)).2.1 else content.drop start

/-- The worker `processBatch(start, end)`: the values it passes to `Add`, in order.
The fuel is one more than the number of unread bytes. -/
def processBatch (parse : List UInt8 → Option Nat) (content : List UInt8)
    (start stop : Nat) : Option (List Nat) :=
  let rd := seekAndAlign content start
  scan parse (rd.length + 1) start stop rd

/-- The spans `(start, end)` computed by the loop of `Do`, in worker order. -/
def spans (size workers : Nat) : List (Nat × Nat) :=
  let batchSize := size / workers
  (List.range workers).map (fun i =>
    let start := batchSize * i
    (start, if i = workers - 1 then size else start + batchSize))

/-- An error value. A plain error has a text and no `Unwrap`; its `Is` method accepts
the plain errors whose texts are listed in `also` (as `syscall.ENOENT` accepts
`os.ErrNotExist`). The other errors wrap a cause: `fmt.Errorf` with the verb `%w`,
or `*fs.PathError`. -/
inductive GoError where
  | plain (text : String) (also : List String)
  | wrap (msg : String) (cause : GoError)
deriving DecidableEq, Repr

/-- The call `errors.Is(err, target)`: along the `Unwrap` chain of `err`, an error
equal to `target` or whose `Is` method accepts `target`. -/
def errorsIs : GoError → GoError → Bool
  | GoError.plain text also, target =>
    decide (GoError.plain text also = target) ||
      (match target with
       | GoError.plain t _ => also.contains t
       | GoError.wrap _ _ => false)
  | GoError.wrap msg cause, target =>
    decide (GoError.wrap msg cause = target) || errorsIs cause target

/-- What `os.Open` and `file.Stat` find at the configured file name: an error of
`os.Open`, an error of `file.Stat`, or a file with its content. -/
inductive File where
  | openFails (err : GoError)
  | statFails (err : GoError)
  | regular (content : List UInt8)
deriving DecidableEq, Repr

/-- Loader.Do: the error returned, or the values each worker passed to `Add`
(in worker order). The outer `none` means that `Do` did not return: the division
`size / p.workers` by zero panics, or a worker did not finish, so that `wg.Wait()`
did not return. -/
def Do (parse : List UInt8 → Option Nat) (file : File) (workers : Nat) :
    Option (Except GoError (List (List Nat))) :=
  match file with
  | File.openFails err => some (Except.error (GoError.wrap "error opening file" err))
  | File.statFails err => some (Except.error (GoError.wrap "error getting file size" err))
  | File.regular content =>
    if workers = 0 then none
    else
      ((spans content.length workers).mapM
        (fun s => processBatch parse content s.1 s.2)).map Except.ok

/-- The loop of `netip.parseIPv4Fields` over the rest of the text: `prev` is the
byte before (`none` at index 0), `val` and `digLen` the value and digit count of
the current octet, `fields` the octets completed so far. -/
def parseIPv4Fields : List UInt8 → Option UInt8 → Nat → Nat → List Nat → Option (List Nat)
  | [], _, val, _, fields => if fields.length < 3 then none else some (fields ++ [val])
  | c :: rest, prev, val, digLen, fields =>
    if 48 ≤ c ∧ c ≤ 57 then
      if digLen = 1 ∧ val = 0 then none
      else if val * 10 + c.toNat - 48 > 255 then none
      else parseIPv4Fields rest (some c) (val * 10 + c.toNat - 48) (digLen + 1) fields
    else if c = 46 then
      if prev = none ∨ rest = [] ∨ prev = some 46 then none
      else if fields.length = 3 then none
      else parseIPv4Fields rest (some c) 0 0 (fields ++ [val])
    else none

/-- The call `binary.BigEndian.Uint32` on four octets. -/
def bigEndianUint32 : List Nat → Option Nat
  | [a, b, c, d] => some ((a <<< 24) ||| (b <<< 16) ||| (c <<< 8) ||| d)
  | _ => none

/-- The dispatch of `netip.ParseAddr` on the first of `.`, `:` and `%` in the text. -/
def parseAddr (v6 : List UInt8 → Option Nat) (s : List UInt8) : List UInt8 → Option Nat
  | [] => none
  | c :: rest =>
    if c = 46 then (parseIPv4Fields s none 0 0 []).bind bigEndianUint32
    else if c = 58 then v6 s
    else if c = 37 then none
    else parseAddr v6 s rest

/-- The value `binary.BigEndian.Uint32(net.ParseIP(s).To4())`, `none` for a nil IP.
The IPv6 branch of the library is the parameter `v6`. -/
def ParseIP (v6 : List UInt8 → Option Nat) (s : List UInt8) : Option Nat :=
  parseAddr v6 s s

/-- The byte of the decimal digit `d`. -/
def digit (d : Nat) : UInt8 :=
  UInt8.ofNat (48 + d)

/-- The decimal text of an octet, without leading zeros. -/
def octetText (o : Nat) : List UInt8 :=
  if o < 10 then [digit o]
  else if o < 100 then [digit (o / 10), digit (o % 10)]
  else [digit (o / 100), digit (o / 10 % 10), digit (o % 10)]

/-- The dotted-decimal text `a.b.c.d` of an IPv4 address. -/
def dotted (a b c d : Nat) : List UInt8 :=
  octetText a ++ 46 :: (octetText b ++ 46 :: (octetText c ++ 46 :: octetText d))

/-- The number `GetUniqueCount` reports after the values of all workers were added
to a Storage made by `New`. -/
def uniqueCount (adds : List (List Nat)) : Option Nat :=
  (Storage.AddAll Storage.New adds.flatten).map Storage.GetUniqueCount

/-- The count read from a Storage made by `New` after `Do` ran on an existing file:
the values of the workers are added in worker order (one schedule of the
goroutines). -/
def runCount (parse : List UInt8 → Option Nat) (content : List UInt8) (workers : Nat) :
    Option Nat :=
  match Do parse (File.regular content) workers with
  | some (Except.ok adds) => uniqueCount adds
  | _ => none

/-- The run of `Do` against a Storage `h`: the error `Do` returns, if any, and the
Storage afterwards. `Do` returns its errors before it starts a worker; otherwise the
values of the workers are added in worker order (one schedule of the goroutines). -/
def DoWith (parse : List UInt8 → Option Nat) (file : File) (workers : Nat) (h : Storage) :
    Option (Option GoError × Storage) :=
  match Do parse file workers with
  | none => none
  | some (Except.error e) => some (some e, h)
  | some (Except.ok adds) => (Storage.AddAll h adds.flatten).map (fun h1 => (none, h1))

/-- The loop of `processBatch` once more, with the same control flow, recording the
texts handed to `net.ParseIP` (each line read, its newline trimmed) in place of the
values added. -/
def scanTexts (parse : List UInt8 → Option Nat) :
    Nat → Nat → Nat → List UInt8 → Option (List (List UInt8))
  | 0, _, _, _ => none
  | fuel + 1, pos, stop, rd =>
    if pos < stop then
      let r := ReadBytes rd
      if r.2.2 = true ∧ r.1.length = 0 then some []
      else
        match parse (TrimSuffix r.1) with
        | none =>
          (scanTexts parse fuel (pos + r.1.length) stop r.2.1).map
            (fun l => TrimSuffix r.1 :: l)
        | some _ =>
          if r.2.2 = true then some [TrimSuffix r.1]
          else (scanTexts parse fuel (pos + r.1.length) stop r.2.1).map
            (fun l => TrimSuffix r.1 :: l)
    else some []

/-- The lines of a file with their newlines kept: the pieces successive `ReadBytes`
calls return when the file is read from its first byte. -/
def chunks : List UInt8 → List (List UInt8)
  | [] => []
  | c :: rest =>
    if c = 10 then [c] :: chunks rest
    else
      match chunks rest with
      | [] => [[c]]
      | l :: ls => (c :: l) :: ls

/-- The offsets of the first bytes of the pieces `cs`, the first piece being at
offset `off`. -/
def offsetsFrom : Nat → List (List UInt8) → List Nat
  | _, [] => []
  | off, c :: cs => off :: offsetsFrom (off + c.length) cs

/-- The offsets in the file of the first byte of each line. -/
def lineOffsets (content : List UInt8) : List Nat :=
  offsetsFrom 0 (chunks content)

/-- The pieces of `cs` that start less than `budget` bytes after the start of `cs`. -/
def takeBudget : Nat → List (List UInt8) → List (List UInt8)
  | _, [] => []
  | budget, c :: cs => if 0 < budget then c :: takeBudget (budget - c.length) cs else []

/-- The lines of a file: the byte strings between newlines, newline removed; a
last line without a newline counts, the empty rest after a final newline does not. -/
def lines : List UInt8 → List (List UInt8)
  | [] => []
  | c :: rest =>
    if c = 10 then [] :: lines rest
    else
      match lines rest with
      | [] => [[c]]
      | l :: ls => (c :: l) :: ls

/-- The error result of a read: none, `io.EOF`, or another error. -/
inductive ReadStatus where
  | ok
  | eof
  | failed
deriving DecidableEq, Repr

/-- The I/O faults one worker meets: whether its own `os.Open` fails, and the file
offsets at which a read of its handle fails with an error other than `io.EOF` (an
offset listed `k` times fails `k` reads in a row; the bytes are not lost, a later
read goes on from the same offset). -/
structure WorkerFaults where
  openFails : Bool
  faults : List Nat
deriving DecidableEq, Repr

/-- What the reader of a worker delivers from offset `off` on: the bytes `bs` of the
file, with a read error (`none`) before the byte at each faulty offset, also at the
end of the file. -/
def streamFrom (faults : List Nat) : Nat → List UInt8 → List (Option UInt8)
  | off, [] => List.replicate (faults.count off) none
  | off, b :: bs =>
    List.replicate (faults.count off) none ++ some b :: streamFrom faults (off + 1) bs

/-- The call `reader.ReadBytes(10)` on what the reader still delivers: the bytes up
to and including the first newline, or up to the first read error or the end of the
file, the rest after them, and the error returned. -/
def ReadBytesFaulty : List (Option UInt8) → List UInt8 × List (Option UInt8) × ReadStatus
  | [] => ([], [], ReadStatus.eof)
  | none :: rest => ([], rest, ReadStatus.failed)
  | some c :: rest =>
    if c = 10 then ([c], rest, ReadStatus.ok)
    else
      let r := ReadBytesFaulty rest
      (c :: r.1, r.2.1, r.2.2)

/-- The loop `for pos < end` of `processBatch` with its return on a read error other
than `io.EOF`; the result lists the values passed to `Add`, `none` means the fuel ran
out before the loop ended. -/
def scanFaulty (parse : List UInt8 → Option Nat) :
    Nat → Nat → Nat → List (Option UInt8) → Option (List Nat)
  | 0, _, _, _ => none
  | fuel + 1, pos, stop, rd =>
    if pos < stop then
      let r := ReadBytesFaulty rd
      if r.2.2 = ReadStatus.failed then some []
      else if r.2.2 = ReadStatus.eof ∧ r.1.length = 0 then some []
      else
        match parse (TrimSuffix r.1) with
        | none => scanFaulty parse fuel (pos + r.1.length) stop r.2.1
        | some ip =>
          if r.2.2 = ReadStatus.eof then some [ip]
          else (scanFaulty parse fuel (pos + r.1.length) stop r.2.1).map (fun l => ip :: l)
    else some []

/-- The worker `processBatch(start, end)` with its two failure returns: it adds
nothing when its `os.Open` fails, it ignores the error of the first `ReadBytes` after
the seek, and it stops at the first read error inside the loop. -/
def processBatchFaulty (parse : List UInt8 → Option Nat) (content : List UInt8)
    (start stop : Nat) (io : WorkerFaults) : Option (List Nat) :=
  if io.openFails = true then some []
  else
    let s := streamFrom io.faults start (content.drop start)
    let rd := if start ≠ 0 then (ReadBytesFaulty s).2.1 else s
    scanFaulty parse (rd.length + 1) start stop rd

/-- Loader.Do where worker `i` meets the faults `ios i`: the error returned, or the
values each worker passed to `Add` (in worker order); a failure of a worker is
printed and not returned by `Do`. -/
def DoFaulty (parse : List UInt8 → Option Nat) (file : File) (workers : Nat)
    (ios : Nat → WorkerFaults) : Option (Except GoError (List (List Nat))) :=
  match file with
  | File.openFails err => some (Except.error (GoError.wrap "error opening file" err))
  | File.statFails err => some (Except.error (GoError.wrap "error getting file size" err))
  | File.regular content =>
    if workers = 0 then none
    else
      ((List.range workers).mapM (fun i =>
        processBatchFaulty parse content (content.length / workers * i)
          (if i = workers - 1 then content.length
           else content.length / workers * i + content.length / workers)
          (ios i))).map Except.ok

/-- The count read from a Storage made by `New` after `DoFaulty` ran on an existing
file. -/
def runCountFaulty (parse : List UInt8 → Option Nat) (content : List UInt8) (workers : Nat)
    (ios : Nat → WorkerFaults) : Option Nat :=
  match DoFaulty parse (File.regular content) workers ios with
  | some (Except.ok adds) => uniqueCount adds
  | _ => none

end Loader

/-! ## Properties of the presence bitmap -/

namespace Storage

theorem OnesCount64_zero : OnesCount64 0 = 0 := by
  simp [OnesCount64]

theorem OnesCount64_eq_card (x : Nat) :
    OnesCount64 x = ((Finset.range 64).filter (fun b => x.testBit b = true)).card := by
  unfold OnesCount64
  simp [Finset.card, Finset.filter, Finset.range, Multiset.range, Multiset.filter_coe]

theorem testBit_or_mask (cur k i : Nat) :
    (cur ||| 1 <<< k).testBit i = (cur.testBit i || decide (k = i)) := by
  rw [Nat.testBit_or, Nat.one_shiftLeft, Nat.testBit_two_pow]

theorem and_mask_ne_zero (cur k : Nat) : cur &&& 1 <<< k ≠ 0 ↔ cur.testBit k = true := by
  rw [Nat.one_shiftLeft]
  constructor
  · intro h
    by_contra hb
    apply h
    apply Nat.eq_of_testBit_eq
    intro i
    rw [Nat.testBit_and, Nat.testBit_two_pow, Nat.zero_testBit]
    by_cases hki : k = i
    · subst hki; simp [hb]
    · simp [hki]
  · intro hb h
    have := congrArg (fun x => x.testBit k) h
    simp [Nat.testBit_two_pow, hb] at this

theorem OnesCount64_or_mask (cur k : Nat) (hk : k < 64) (hb : cur.testBit k = false) :
    OnesCount64 (cur ||| 1 <<< k) = OnesCount64 cur + 1 := by
  rw [OnesCount64_eq_card, OnesCount64_eq_card]
  have : (Finset.range 64).filter (fun b => (cur ||| 1 <<< k).testBit b = true)
      = insert k ((Finset.range 64).filter (fun b => cur.testBit b = true)) := by
    ext i
    simp only [Finset.mem_filter, Finset.mem_range, Finset.mem_insert, testBit_or_mask,
      Bool.or_eq_true, decide_eq_true_eq]
    constructor
    · rintro ⟨hi, h | h⟩
      · exact Or.inr ⟨hi, h⟩
      · exact Or.inl h.symm
    · rintro (h | ⟨hi, h⟩)
      · subst h; exact ⟨hk, Or.inr rfl⟩
      · exact ⟨hi, Or.inl h⟩
  rw [this, Finset.card_insert_of_not_mem]
  simp [hb]

theorem sum_map_set (f : Nat → Nat) (l : List Nat) (i v cur : Nat) (h : l[i]? = some cur) :
    ((l.set i v).map f).sum + f cur = (l.map f).sum + f v := by
  induction l generalizing i with
  | nil => simp at h
  | cons x xs ih =>
    cases i with
    | zero =>
      simp at h
      subst h
      simp [List.set]
      omega
    | succ j =>
      simp at h
      have := ih j h
      simp only [List.set, List.map_cons, List.sum_cons]
      omega

theorem AddW_cases (h : Storage) (a : Nat) (r : Storage × List Nat)
    (hA : AddW h a = some r) :
    ∃ cur, h.bitmap[a / 64]? = some cur ∧
      ((cur.testBit (a % 64) = true ∧ r = (h, [])) ∨
       (cur.testBit (a % 64) = false ∧
         r = (⟨h.bitmap.set (a / 64) (cur ||| 1 <<< (a % 64))⟩, [a / 64]))) := by
  unfold AddW at hA
  simp only at hA
  cases hc : h.bitmap[a / 64]? with
  | none => rw [hc] at hA; simp at hA
  | some cur =>
    rw [hc] at hA
    refine ⟨cur, rfl, ?_⟩
    by_cases hb : cur.testBit (a % 64) = true
    · have hm : cur &&& 1 <<< (a % 64) ≠ 0 := (and_mask_ne_zero cur (a % 64)).2 hb
      simp only [hm, ne_eq, not_false_eq_true, if_true, Option.some.injEq] at hA
      exact Or.inl ⟨hb, hA.symm⟩
    · have hm : ¬ (cur &&& 1 <<< (a % 64) ≠ 0) := fun hne =>
        hb ((and_mask_ne_zero cur (a % 64)).1 hne)
      simp only [hm, if_false, Option.some.injEq] at hA
      exact Or.inr ⟨by simpa using hb, hA.symm⟩

theorem Add_cases (h : Storage) (a : Nat) (h1 : Storage) (hA : Add h a = some h1) :
    ∃ cur, h.bitmap[a / 64]? = some cur ∧
      ((cur.testBit (a % 64) = true ∧ h1 = h) ∨
       (cur.testBit (a % 64) = false ∧
         h1 = ⟨h.bitmap.set (a / 64) (cur ||| 1 <<< (a % 64))⟩)) := by
  unfold Add at hA
  cases hr : AddW h a with
  | none => rw [hr] at hA; simp at hA
  | some r =>
    rw [hr] at hA
    simp only [Option.map_some', Option.some.injEq] at hA
    obtain ⟨cur, hc, hcase⟩ := AddW_cases h a r hr
    refine ⟨cur, hc, ?_⟩
    rcases hcase with ⟨hb, rfl⟩ | ⟨hb, rfl⟩
    · exact Or.inl ⟨hb, hA.symm⟩
    · exact Or.inr ⟨hb, hA.symm⟩

theorem AddW_isSome (h : Storage) (a : Nat) (hi : a / 64 < h.bitmap.length) :
    ∃ r, AddW h a = some r := by
  unfold AddW
  simp only [List.getElem?_eq_getElem hi]
  split <;> exact ⟨_, rfl⟩

theorem Add_isSome (h : Storage) (a : Nat) (hi : a / 64 < h.bitmap.length) :
    ∃ h1, Add h a = some h1 := by
  obtain ⟨r, hr⟩ := AddW_isSome h a hi
  exact ⟨r.1, by simp [Add, hr]⟩

theorem Add_length (h : Storage) (a : Nat) (h1 : Storage) (hA : Add h a = some h1) :
    h1.bitmap.length = h.bitmap.length := by
  obtain ⟨cur, _, ⟨_, rfl⟩ | ⟨_, rfl⟩⟩ := Add_cases h a h1 hA
  · rfl
  · simp

theorem bitSet_Add (h : Storage) (a : Nat) (h1 : Storage) (hA : Add h a = some h1)
    (w b : Nat) :
    bitSet h1 w b = (bitSet h w b || (decide (w = a / 64) && decide (b = a % 64))) := by
  obtain ⟨cur, hc, ⟨hb, rfl⟩ | ⟨hb, rfl⟩⟩ := Add_cases h a h1 hA
  · by_cases hw : w = a / 64
    · by_cases hbb : b = a % 64
      · subst hw hbb
        simp [bitSet, List.getD_eq_getElem?_getD, hc, hb]
      · simp [hbb]
    · simp [hw]
  · unfold bitSet
    simp only [List.getD_eq_getElem?_getD, List.getElem?_set]
    by_cases hw : w = a / 64
    · subst hw
      have hlt : a / 64 < h.bitmap.length := by
        rcases Nat.lt_or_ge (a / 64) h.bitmap.length with hl | hl
        · exact hl
        · rw [List.getElem?_eq_none hl] at hc; simp at hc
      simp only [hlt, if_true, Option.getD_some, hc, testBit_or_mask, decide_True,
        Bool.true_and]
      congr 1
      exact Bool.decide_congr eq_comm
    · have hw2 : ¬ a / 64 = w := fun e => hw e.symm
      simp [hw, hw2]

theorem count_Add (h : Storage) (a : Nat) (h1 : Storage) (hA : Add h a = some h1) :
    GetUniqueCount h1
      = GetUniqueCount h + (if bitSet h (a / 64) (a % 64) = true then 0 else 1) := by
  obtain ⟨cur, hc, ⟨hb, rfl⟩ | ⟨hb, rfl⟩⟩ := Add_cases h a h1 hA
  · simp [bitSet, List.getD_eq_getElem?_getD, hc, hb]
  · have hs := sum_map_set OnesCount64 h.bitmap (a / 64) (cur ||| 1 <<< (a % 64)) cur hc
    rw [OnesCount64_or_mask cur (a % 64) (Nat.mod_lt _ (by decide)) hb] at hs
    simp only [GetUniqueCount, bitSet, List.getD_eq_getElem?_getD, hc, Option.getD_some, hb]
    simp only [Bool.false_eq_true, if_false]
    omega

theorem getD_replicate_zero (n w : Nat) : (List.replicate n (0 : Nat)).getD w 0 = 0 := by
  rw [List.getD_eq_getElem?_getD, List.getElem?_replicate]
  split <;> rfl

theorem New_length : New.bitmap.length = 67108864 := by
  unfold New
  rw [List.length_replicate]
  rfl

theorem bitSet_New (w b : Nat) : bitSet New w b = false := by
  unfold bitSet New
  rw [getD_replicate_zero]
  exact Nat.zero_testBit b

theorem count_New : GetUniqueCount New = 0 := by
  unfold GetUniqueCount New
  rw [List.map_replicate, List.sum_replicate, OnesCount64_zero]
  simp

theorem div_mod_eq_iff (x a : Nat) : (x / 64 = a / 64 ∧ x % 64 = a % 64) ↔ x = a := by
  omega

/-- Invariant of a run of `Add` calls: from a state whose set bits are exactly the
addresses of `S` and whose count is the size of `S`, the calls succeed and lead
to a state with the same property for `S` extended by the arguments. -/
theorem AddAll_inv (ips : List Nat) : ∀ (h : Storage) (S : Finset Nat),
    (∀ a ∈ ips, a / 64 < h.bitmap.length) →
    (∀ a, bitSet h (a / 64) (a % 64) = true ↔ a ∈ S) →
    GetUniqueCount h = S.card →
    ∃ h1, AddAll h ips = some h1 ∧ h1.bitmap.length = h.bitmap.length ∧
      (∀ a, bitSet h1 (a / 64) (a % 64) = true ↔ a ∈ S ∪ ips.toFinset) ∧
      GetUniqueCount h1 = (S ∪ ips.toFinset).card := by
  induction ips with
  | nil =>
    intro h S _ hmem hcount
    exact ⟨h, rfl, rfl, by simpa using hmem, by simpa using hcount⟩
  | cons a ips ih =>
    intro h S hlen hmem hcount
    obtain ⟨h1, hA⟩ := Add_isSome h a (hlen a (List.mem_cons_self a ips))
    have hl1 := Add_length h a h1 hA
    have hmem1 : ∀ x, bitSet h1 (x / 64) (x % 64) = true ↔ x ∈ insert a S := by
      intro x
      rw [bitSet_Add h a h1 hA, Finset.mem_insert, Bool.or_eq_true, Bool.and_eq_true,
        decide_eq_true_eq, decide_eq_true_eq, div_mod_eq_iff, hmem x]
      exact or_comm
    have hcount1 : GetUniqueCount h1 = (insert a S).card := by
      rw [count_Add h a h1 hA, hcount]
      by_cases haS : a ∈ S
      · rw [if_pos ((hmem a).2 haS), Finset.card_insert_of_mem haS, Nat.add_zero]
      · rw [if_neg (fun hb => haS ((hmem a).1 hb)), Finset.card_insert_of_not_mem haS]
    obtain ⟨h2, hAll, hl2, hmem2, hcount2⟩ := ih h1 (insert a S)
      (fun x hx => by rw [hl1]; exact hlen x (List.mem_cons_of_mem a hx)) hmem1 hcount1
    have hS : insert a S ∪ ips.toFinset = S ∪ (a :: ips).toFinset := by
      ext x
      simp only [Finset.mem_union, Finset.mem_insert, List.toFinset_cons]
      tauto
    refine ⟨h2, by simp [AddAll, hA, hAll], by rw [hl2, hl1], ?_, ?_⟩
    · intro x; rw [hmem2 x, hS]
    · rw [hcount2, hS]

/-- From `New`, a run of `Add` calls on 32-bit values succeeds; the bits set
afterwards are exactly those of the arguments and the count is the number of
distinct arguments. -/
theorem AddAll_New (ips : List Nat) (hips : ∀ a ∈ ips, a < 2 ^ 32) :
    ∃ h1, AddAll New ips = some h1 ∧ h1.bitmap.length = 67108864 ∧
      (∀ a, bitSet h1 (a / 64) (a % 64) = true ↔ a ∈ ips) ∧
      GetUniqueCount h1 = ips.dedup.length := by
  obtain ⟨h1, hAll, hl, hmem, hcount⟩ := AddAll_inv ips New ∅
    (fun a ha => by
      rw [New_length]
      have := hips a ha
      omega)
    (fun a => by simp [bitSet_New])
    (by simp [count_New])
  refine ⟨h1, hAll, by rw [hl, New_length], ?_, ?_⟩
  · intro a; rw [hmem a]; simp
  · rw [hcount, Finset.empty_union, List.card_toFinset]

/-- C4. Adding any finite sequence of 32-bit addresses, one after another, to a
Storage made by `New` succeeds, and `GetUniqueCount` then returns exactly the number
of distinct values of the sequence; it returns 0 on a fresh Storage and on the
zero-value Storage, and 5 after the sequence 0, 1, 1, 63, 64, MaxUint32, MaxUint32. -/
theorem getUniqueCount_eq_distinct :
    (∀ ips : List Nat, (∀ a ∈ ips, a < 2 ^ 32) →
      ∃ h1, AddAll New ips = some h1 ∧ GetUniqueCount h1 = ips.dedup.length) ∧
    GetUniqueCount New = 0 ∧
    GetUniqueCount zeroValue = 0 ∧
    (AddAll New [0, 1, 1, 63, 64, 4294967295, 4294967295]).map GetUniqueCount = some 5 := by
  refine ⟨?_, count_New, rfl, ?_⟩
  · intro ips hips
    obtain ⟨h1, hAll, _, _, hcount⟩ := AddAll_New ips hips
    exact ⟨h1, hAll, hcount⟩
  · obtain ⟨h1, hAll, _, _, hcount⟩ :=
      AddAll_New [0, 1, 1, 63, 64, 4294967295, 4294967295] (by decide)
    rw [hAll, Option.map_some', hcount]
    decide

/-- Instance of C4 at the sequence 7, 7, 9. -/
theorem getUniqueCount_eq_distinct_witness :
    (∀ a ∈ [7, 7, 9], a < 2 ^ 32) ∧
    ∃ h1, AddAll New [7, 7, 9] = some h1 ∧ GetUniqueCount h1 = 2 :=
  ⟨by decide, getUniqueCount_eq_distinct.1 [7, 7, 9] (by decide)⟩

theorem AddW_of_bitSet (h : Storage) (a : Nat) (hi : a / 64 < h.bitmap.length)
    (hb : bitSet h (a / 64) (a % 64) = true) : AddW h a = some (h, []) := by
  obtain ⟨r, hr⟩ := AddW_isSome h a hi
  obtain ⟨cur, hc, ⟨_, rfl⟩ | ⟨hcb, rfl⟩⟩ := AddW_cases h a r hr
  · exact hr
  · simp [bitSet, List.getD_eq_getElem?_getD, hc, hcb] at hb

theorem Add_again (h : Storage) (a : Nat) (h1 : Storage) (hA : Add h a = some h1) :
    Add h1 a = some h1 := by
  have hi : a / 64 < h1.bitmap.length := by
    rw [Add_length h a h1 hA]
    obtain ⟨cur, hc, _⟩ := Add_cases h a h1 hA
    rcases Nat.lt_or_ge (a / 64) h.bitmap.length with hl | hl
    · exact hl
    · rw [List.getElem?_eq_none hl] at hc; simp at hc
  have hb : bitSet h1 (a / 64) (a % 64) = true := by
    rw [bitSet_Add h a h1 hA]; simp
  simp [Add, AddW_of_bitSet h1 a hi hb]

theorem AddAll_replicate (h1 : Storage) (a : Nat) (hA : Add h1 a = some h1) (n : Nat) :
    AddAll h1 (List.replicate n a) = some h1 := by
  induction n with
  | zero => rfl
  | succ n ih => simp [List.replicate_succ, AddAll, hA, ih]

/-- C8. A second `Add` of the same address changes nothing: `Add(a)` followed by
`Add(a)` gives the same result as a single `Add(a)` from every state; in every state
reached from `New` the call succeeds, and any number of repeats of an address
already added leaves the bitmap, hence `GetUniqueCount`, as it was. -/
theorem add_idempotent :
    (∀ (h : Storage) (a : Nat), (Add h a).bind (fun h1 => Add h1 a) = Add h a) ∧
    (∀ (ips : List Nat) (a : Nat), (∀ x ∈ ips, x < 2 ^ 32) → a < 2 ^ 32 →
      ∃ h h1, AddAll New ips = some h ∧ Add h a = some h1 ∧ Add h1 a = some h1 ∧
        ∀ n, AddAll h1 (List.replicate n a) = some h1) := by
  constructor
  · intro h a
    cases hA : Add h a with
    | none => rfl
    | some h1 => exact Add_again h a h1 hA
  · intro ips a hips ha
    obtain ⟨h, hAll, hl, _, _⟩ := AddAll_New ips hips
    obtain ⟨h1, hA⟩ := Add_isSome h a (by rw [hl]; omega)
    exact ⟨h, h1, hAll, hA, Add_again h a h1 hA,
      AddAll_replicate h1 a (Add_again h a h1 hA)⟩

/-- Instance of C8 after the adds 3, 200, repeating the address 200. -/
theorem add_idempotent_witness :
    (∀ x ∈ [3, 200], x < 2 ^ 32) ∧ 200 < 2 ^ 32 ∧
    ∃ h h1, AddAll New [3, 200] = some h ∧ Add h 200 = some h1 ∧ Add h1 200 = some h1 ∧
      ∀ n, AddAll h1 (List.replicate n 200) = some h1 :=
  ⟨by decide, by decide, add_idempotent.2 [3, 200] 200 (by decide) (by decide)⟩

/-- C9. In every state reached from `New` by `Add` calls on 32-bit addresses, bit `b`
of word `w` (for `w < 2 ^ 26`, `b < 64`) is set if and only if `w * 64 + b` was an
argument of one of the calls; and `Add` never turns a set bit back to 0. -/
theorem bit_set_iff_added :
    (∀ ips : List Nat, (∀ a ∈ ips, a < 2 ^ 32) →
      ∃ h1, AddAll New ips = some h1 ∧ h1.bitmap.length = 2 ^ 26 ∧
        ∀ w b, w < 2 ^ 26 → b < 64 → (bitSet h1 w b = true ↔ w * 64 + b ∈ ips)) ∧
    (∀ (h : Storage) (a : Nat) (h1 : Storage), Add h a = some h1 →
      ∀ w b, bitSet h w b = true → bitSet h1 w b = true) := by
  constructor
  · intro ips hips
    obtain ⟨h1, hAll, hl, hmem, _⟩ := AddAll_New ips hips
    refine ⟨h1, hAll, by rw [hl]; rfl, ?_⟩
    intro w b _ hb
    have h1w : (w * 64 + b) / 64 = w := by omega
    have h1b : (w * 64 + b) % 64 = b := by omega
    have := hmem (w * 64 + b)
    rwa [h1w, h1b] at this
  · intro h a h1 hA w b hset
    rw [bitSet_Add h a h1 hA, hset, Bool.true_or]

/-- Instance of C9 after the adds 0, 65, 65: bit 1 of word 1 is set, bit 2 is not. -/
theorem bit_set_iff_added_witness :
    (∀ a ∈ [0, 65, 65], a < 2 ^ 32) ∧
    ∃ h1, AddAll New [0, 65, 65] = some h1 ∧ h1.bitmap.length = 2 ^ 26 ∧
      ∀ w b, w < 2 ^ 26 → b < 64 → (bitSet h1 w b = true ↔ w * 64 + b ∈ [0, 65, 65]) :=
  ⟨by decide, bit_set_iff_added.1 [0, 65, 65] (by decide)⟩

/-- C10. A call `Add(a)` that returns writes at most the one word `bitmap[a / 64]`:
every other word is unchanged, within that word every bit other than `a % 64` keeps
its value, the length is unchanged, and when bit `a % 64` was already set no word
is written and the state is the same. -/
theorem add_frame (h : Storage) (a : Nat) (r : Storage × List Nat)
    (hA : AddW h a = some r) :
    (∀ i ∈ r.2, i = a / 64) ∧ r.2.length ≤ 1 ∧
    r.1.bitmap.length = h.bitmap.length ∧
    (∀ w, w ≠ a / 64 → r.1.bitmap[w]? = h.bitmap[w]?) ∧
    (∀ w, w ∉ r.2 → r.1.bitmap[w]? = h.bitmap[w]?) ∧
    (∀ b, b ≠ a % 64 → bitSet r.1 (a / 64) b = bitSet h (a / 64) b) ∧
    (bitSet h (a / 64) (a % 64) = true → r = (h, [])) := by
  have hAdd : Add h a = some r.1 := by simp [Add, hA]
  obtain ⟨cur, hc, hcase⟩ := AddW_cases h a r hA
  have hframe : ∀ b, b ≠ a % 64 → bitSet r.1 (a / 64) b = bitSet h (a / 64) b := by
    intro b hb
    rw [bitSet_Add h a r.1 hAdd]
    simp [hb]
  rcases hcase with ⟨hb, rfl⟩ | ⟨hb, rfl⟩
  · refine ⟨by simp, by simp, rfl, fun _ _ => rfl, fun _ _ => rfl, hframe, fun _ => rfl⟩
  · refine ⟨by simp, by simp, by simp, ?_, ?_, hframe, ?_⟩
    · intro w hw
      have hw2 : ¬ a / 64 = w := fun e => hw e.symm
      simp [List.getElem?_set, hw2]
    · intro w hw
      have hw2 : ¬ a / 64 = w := fun e => hw (by simp [e])
      simp [List.getElem?_set, hw2]
    · intro hset
      simp [bitSet, List.getD_eq_getElem?_getD, hc, hb] at hset

/-- Instance of C10: adding 65 to the two words 0, 5 writes word 1 only. -/
theorem add_frame_witness :
    AddW ⟨[0, 5]⟩ 65 = some (⟨[0, 7]⟩, [1]) ∧
    ∀ w, w ≠ 65 / 64 → ([0, 7] : List Nat)[w]? = ([0, 5] : List Nat)[w]? :=
  ⟨by decide, (add_frame ⟨[0, 5]⟩ 65 (⟨[0, 7]⟩, [1]) (by decide)).2.2.2.1⟩

theorem ext_bitSet (h1 h2 : Storage) (hl : h1.bitmap.length = h2.bitmap.length)
    (hb : ∀ w b, bitSet h1 w b = bitSet h2 w b) : h1 = h2 := by
  cases h1 with
  | mk bm1 =>
    cases h2 with
    | mk bm2 =>
      simp only at hl
      congr 1
      apply List.ext_getElem hl
      intro w hw1 hw2
      apply Nat.eq_of_testBit_eq
      intro b
      have := hb w b
      simpa [bitSet, List.getD_eq_getElem?_getD, List.getElem?_eq_getElem hw1,
        List.getElem?_eq_getElem hw2] using this

theorem Add_eq_none (h : Storage) (a : Nat) (hi : h.bitmap.length ≤ a / 64) :
    Add h a = none := by
  simp [Add, AddW, List.getElem?_eq_none hi]

theorem Add_comm (h : Storage) (a b : Nat) :
    (Add h a).bind (fun h1 => Add h1 b) = (Add h b).bind (fun h1 => Add h1 a) := by
  rcases Nat.lt_or_ge (a / 64) h.bitmap.length with ha | ha
  · rcases Nat.lt_or_ge (b / 64) h.bitmap.length with hb | hb
    · obtain ⟨ha1, hA⟩ := Add_isSome h a ha
      obtain ⟨hb1, hB⟩ := Add_isSome h b hb
      have hla := Add_length h a ha1 hA
      have hlb := Add_length h b hb1 hB
      obtain ⟨hab, hAB⟩ := Add_isSome ha1 b (by rw [hla]; exact hb)
      obtain ⟨hba, hBA⟩ := Add_isSome hb1 a (by rw [hlb]; exact ha)
      rw [hA, hB, Option.some_bind, Option.some_bind, hAB, hBA]
      congr 1
      apply ext_bitSet
      · rw [Add_length ha1 b hab hAB, Add_length hb1 a hba hBA, hla, hlb]
      · intro w c
        rw [bitSet_Add ha1 b hab hAB, bitSet_Add h a ha1 hA, bitSet_Add hb1 a hba hBA,
          bitSet_Add h b hb1 hB, Bool.or_assoc, Bool.or_assoc]
        congr 1
        exact Bool.or_comm _ _
    · rw [Add_eq_none h b hb, Option.none_bind]
      cases hA : Add h a with
      | none => rfl
      | some ha1 =>
        rw [Option.some_bind]
        exact Add_eq_none ha1 b (by rw [Add_length h a ha1 hA]; exact hb)
  · rw [Add_eq_none h a ha, Option.none_bind]
    cases hB : Add h b with
    | none => rfl
    | some hb1 =>
      rw [Option.some_bind]
      exact (Add_eq_none hb1 a (by rw [Add_length h b hb1 hB]; exact ha)).symm

theorem AddAll_perm (l1 l2 : List Nat) (hp : l1.Perm l2) :
    ∀ h : Storage, AddAll h l1 = AddAll h l2 := by
  induction hp with
  | nil => intro h; rfl
  | cons x _ ih =>
    intro h
    simp only [AddAll]
    cases Add h x with
    | none => rfl
    | some h1 => exact ih h1
  | swap x y l =>
    intro h
    simp only [AddAll]
    have hc := Add_comm h y x
    cases hy : Add h y with
    | none =>
      cases hx : Add h x with
      | none => rfl
      | some hx1 =>
        rw [hy, hx] at hc
        simp only [Option.none_bind, Option.some_bind] at hc
        simp [← hc]
    | some hy1 =>
      cases hx : Add h x with
      | none =>
        rw [hy, hx] at hc
        simp only [Option.none_bind, Option.some_bind] at hc
        simp [hc]
      | some hx1 =>
        rw [hy, hx] at hc
        simp only [Option.some_bind] at hc
        simp only [Option.some_bind]
        rw [hc]
  | trans _ _ ih1 ih2 => intro h; rw [ih1 h, ih2 h]

/-- C11. From every Storage state, `Add(a)` then `Add(b)` gives the same result as
`Add(b)` then `Add(a)`; hence a run of `Add` calls over a list gives the same bitmap,
and the same `GetUniqueCount`, for every permutation of the list. From `New` and
32-bit addresses both orders succeed. -/
theorem add_commutative :
    (∀ (h : Storage) (a b : Nat),
      (Add h a).bind (fun h1 => Add h1 b) = (Add h b).bind (fun h1 => Add h1 a)) ∧
    (∀ (h : Storage) (l1 l2 : List Nat), l1.Perm l2 →
      AddAll h l1 = AddAll h l2 ∧
      (AddAll h l1).map GetUniqueCount = (AddAll h l2).map GetUniqueCount) ∧
    (∀ l1 l2 : List Nat, l1.Perm l2 → (∀ a ∈ l1, a < 2 ^ 32) →
      ∃ h1, AddAll New l1 = some h1 ∧ AddAll New l2 = some h1) := by
  refine ⟨Add_comm, ?_, ?_⟩
  · intro h l1 l2 hp
    rw [AddAll_perm l1 l2 hp h]
    exact ⟨rfl, rfl⟩
  · intro l1 l2 hp hl
    obtain ⟨h1, hAll, _⟩ := AddAll_New l1 hl
    exact ⟨h1, hAll, by rw [← AddAll_perm l1 l2 hp New]; exact hAll⟩

/-- Instance of C11 at the lists 1, 2, 70 and 70, 1, 2. -/
theorem add_commutative_witness :
    [1, 2, 70].Perm [70, 1, 2] ∧ (∀ a ∈ [1, 2, 70], a < 2 ^ 32) ∧
    ∃ h1, AddAll New [1, 2, 70] = some h1 ∧ AddAll New [70, 1, 2] = some h1 :=
  ⟨by decide, by decide, add_commutative.2.2 [1, 2, 70] [70, 1, 2] (by decide) (by decide)⟩

/-- C15. The bitmap of `New` has `2 ^ 32 / 64 = 67108864` words and the word index
`a / 64` of every 32-bit address, 0 and 4294967295 included, is below that length, so
`Add` does not index out of range, from `New` and from every state reached from it;
after adding 0, 4294967295 and any value strictly between them `GetUniqueCount`
is 3. -/
theorem add_index_in_range :
    New.bitmap.length = 67108864 ∧ 2 ^ 32 / 64 = 67108864 ∧
    (∀ a : Nat, a < 2 ^ 32 → a / 64 < New.bitmap.length ∧ ∃ h1, Add New a = some h1) ∧
    (∀ (ips : List Nat) (a : Nat), (∀ x ∈ ips, x < 2 ^ 32) → a < 2 ^ 32 →
      ∃ h h1, AddAll New ips = some h ∧ a / 64 < h.bitmap.length ∧ Add h a = some h1) ∧
    (∀ m : Nat, 0 < m → m < 4294967295 →
      (AddAll New [0, 4294967295, m]).map GetUniqueCount = some 3) := by
  refine ⟨New_length, by norm_num, ?_, ?_, ?_⟩
  · intro a ha
    have hi : a / 64 < New.bitmap.length := by rw [New_length]; omega
    exact ⟨hi, Add_isSome New a hi⟩
  · intro ips a hips ha
    obtain ⟨h, hAll, hl, _, _⟩ := AddAll_New ips hips
    have hi : a / 64 < h.bitmap.length := by rw [hl]; omega
    obtain ⟨h1, hA⟩ := Add_isSome h a hi
    exact ⟨h, h1, hAll, hi, hA⟩
  · intro m hm0 hm1
    obtain ⟨h1, hAll, _, _, hcount⟩ := AddAll_New [0, 4294967295, m] (by
      intro a ha
      simp only [List.mem_cons, List.mem_singleton, List.not_mem_nil, or_false] at ha
      rcases ha with rfl | rfl | rfl
      · norm_num
      · norm_num
      · omega)
    rw [hAll, Option.map_some', hcount]
    have hnd : [0, 4294967295, m].Nodup := by
      simp only [List.nodup_cons, List.mem_cons, List.mem_singleton, List.not_mem_nil,
        not_false_eq_true, List.nodup_nil, and_true, not_or]
      omega
    rw [hnd.dedup]
    rfl

/-- Instance of C15 at the addresses 4294967295 and 1000. -/
theorem add_index_in_range_witness :
    (4294967295 < 2 ^ 32 ∧ 4294967295 / 64 < New.bitmap.length) ∧
    (0 < 1000 ∧ 1000 < 4294967295 ∧
      (AddAll New [0, 4294967295, 1000]).map GetUniqueCount = some 3) :=
  ⟨⟨by norm_num, (add_index_in_range.2.2.1 4294967295 (by norm_num)).1⟩,
   ⟨by norm_num, by norm_num, add_index_in_range.2.2.2.2 1000 (by norm_num) (by norm_num)⟩⟩

theorem bitSet_set_or (h : Storage) (idx k word : Nat) (hc : h.bitmap[idx]? = some word)
    (w b : Nat) :
    bitSet ⟨h.bitmap.set idx (word ||| 1 <<< k)⟩ w b
      = (bitSet h w b || (decide (w = idx) && decide (b = k))) := by
  unfold bitSet
  simp only [List.getD_eq_getElem?_getD, List.getElem?_set]
  by_cases hw : w = idx
  · subst hw
    have hlt : w < h.bitmap.length := by
      rcases Nat.lt_or_ge w h.bitmap.length with hl | hl
      · exact hl
      · rw [List.getElem?_eq_none hl] at hc; simp at hc
    simp only [hlt, if_true, Option.getD_some, hc, testBit_or_mask, decide_True,
      Bool.true_and]
    congr 1
    exact Bool.decide_congr eq_comm
  · have hw2 : ¬ idx = w := fun e => hw e.symm
    simp [hw, hw2]

theorem AddAll_bits_only (ips : List Nat) : ∀ (h h1 : Storage), AddAll h ips = some h1 →
    ∀ w b, bitSet h1 w b = true →
      bitSet h w b = true ∨ ∃ a ∈ ips, a / 64 = w ∧ a % 64 = b := by
  induction ips with
  | nil =>
    intro h h1 hA w b hb
    simp only [AddAll, Option.some.injEq] at hA
    subst hA
    exact Or.inl hb
  | cons a ips ih =>
    intro h h1 hA w b hb
    simp only [AddAll] at hA
    cases hAdd : Add h a with
    | none => rw [hAdd] at hA; simp at hA
    | some h2 =>
      rw [hAdd, Option.some_bind] at hA
      rcases ih h2 h1 hA w b hb with h3 | ⟨x, hx, hxw, hxb⟩
      · rw [bitSet_Add h a h2 hAdd, Bool.or_eq_true, Bool.and_eq_true, decide_eq_true_eq,
          decide_eq_true_eq] at h3
        rcases h3 with h3 | ⟨h4, h5⟩
        · exact Or.inl h3
        · exact Or.inr ⟨a, List.mem_cons_self a ips, h4.symm, h5.symm⟩
      · exact Or.inr ⟨x, List.mem_cons_of_mem a hx, hxw, hxb⟩

theorem count_zero_bitmap (L : Nat) : GetUniqueCount ⟨List.replicate L 0⟩ = 0 := by
  unfold GetUniqueCount
  rw [List.map_replicate, List.sum_replicate, OnesCount64_zero]
  simp

theorem bitSet_zero_bitmap (L w b : Nat) : bitSet ⟨List.replicate L 0⟩ w b = false := by
  unfold bitSet
  rw [getD_replicate_zero]
  exact Nat.zero_testBit b

/-- A bitmap of length `L` whose set bits are exactly the bits of the addresses `A`
has the count of the distinct addresses of `A`. -/
theorem count_of_bits (L : Nat) (A : List Nat) (hA : ∀ a ∈ A, a / 64 < L) (h : Storage)
    (hl : h.bitmap.length = L)
    (honly : ∀ w b, bitSet h w b = true → ∃ a ∈ A, a / 64 = w ∧ a % 64 = b)
    (hall : ∀ a ∈ A, bitSet h (a / 64) (a % 64) = true) :
    GetUniqueCount h = A.dedup.length := by
  obtain ⟨h1, hAll, hl1, hmem, hcount⟩ := AddAll_inv A ⟨List.replicate L 0⟩ ∅
    (fun a ha => by simpa using hA a ha)
    (fun a => by simp [bitSet_zero_bitmap])
    (by simp [count_zero_bitmap])
  have heq : h = h1 := by
    apply ext_bitSet
    · rw [hl, hl1]; simp
    · intro w b
      cases hb : bitSet h w b with
      | true =>
        obtain ⟨a, ha, rfl, rfl⟩ := honly w b hb
        exact ((hmem a).2 (by simpa using ha)).symm
      | false =>
        cases hb1 : bitSet h1 w b with
        | false => rfl
        | true =>
          rcases AddAll_bits_only A _ h1 hAll w b hb1 with h0 | ⟨a, ha, rfl, rfl⟩
          · rw [bitSet_zero_bitmap] at h0; simp at h0
          · rw [hall a ha] at hb; simp at hb
  rw [heq, hcount, Finset.empty_union, List.card_toFinset]

theorem stepRoutine_facts (h : Storage) (g : Goroutine) (p : Storage × Goroutine)
    (hs : stepRoutine h g = some p) :
    ∃ ip, ip ∈ g.pending ∧ ip / 64 < h.bitmap.length ∧
      p.1.bitmap.length = h.bitmap.length ∧
      (∀ w b, bitSet p.1 w b = true →
        bitSet h w b = true ∨ (ip / 64 = w ∧ ip % 64 = b)) ∧
      (∀ w b, bitSet h w b = true → bitSet p.1 w b = true) ∧
      (∀ a ∈ g.pending, a ∈ p.2.pending ∨ bitSet p.1 (a / 64) (a % 64) = true) ∧
      (∀ a ∈ p.2.pending, a ∈ g.pending) := by
  unfold stepRoutine at hs
  cases hp : g.pending with
  | nil => rw [hp] at hs; simp at hs
  | cons ip rest =>
    rw [hp] at hs
    simp only at hs
    cases hc : h.bitmap[ip / 64]? with
    | none => rw [hc] at hs; simp at hs
    | some word =>
      rw [hc] at hs
      simp only at hs
      have hlt : ip / 64 < h.bitmap.length := by
        rcases Nat.lt_or_ge (ip / 64) h.bitmap.length with hl | hl
        · exact hl
        · rw [List.getElem?_eq_none hl] at hc; simp at hc
      refine ⟨ip, List.mem_cons_self ip rest, hlt, ?_⟩
      have hbit : bitSet h (ip / 64) (ip % 64) = word.testBit (ip % 64) := by
        simp [bitSet, List.getD_eq_getElem?_getD, hc]
      cases hl : g.loaded with
      | none =>
        rw [hl] at hs
        simp only at hs
        by_cases hm : word &&& 1 <<< (ip % 64) ≠ 0
        · rw [if_pos hm, Option.some.injEq] at hs
          subst hs
          refine ⟨rfl, fun _ _ hb => Or.inl hb, fun _ _ hb => hb, ?_, ?_⟩
          · intro a ha
            rcases List.mem_cons.1 ha with rfl | ha
            · right
              rw [hbit]
              exact (and_mask_ne_zero word (a % 64)).1 hm
            · exact Or.inl ha
          · intro a ha
            exact List.mem_cons_of_mem ip ha
        · rw [if_neg hm, Option.some.injEq] at hs
          subst hs
          exact ⟨rfl, fun _ _ hb => Or.inl hb, fun _ _ hb => hb, fun a ha => Or.inl ha,
            fun a ha => ha⟩
      | some cur =>
        rw [hl] at hs
        simp only at hs
        by_cases hw : word = cur
        · rw [if_pos hw, Option.some.injEq] at hs
          subst hs
          subst hw
          have hset := bitSet_set_or h (ip / 64) (ip % 64) word hc
          refine ⟨by simp, ?_, ?_, ?_, ?_⟩
          · intro w b hb
            rw [hset w b, Bool.or_eq_true, Bool.and_eq_true, decide_eq_true_eq,
              decide_eq_true_eq] at hb
            rcases hb with hb | ⟨h1, h2⟩
            · exact Or.inl hb
            · exact Or.inr ⟨h1.symm, h2.symm⟩
          · intro w b hb
            rw [hset w b, hb, Bool.true_or]
          · intro a ha
            rcases List.mem_cons.1 ha with rfl | ha
            · right
              rw [hset]
              simp
            · exact Or.inl ha
          · intro a ha
            exact List.mem_cons_of_mem ip ha
        · rw [if_neg hw, Option.some.injEq] at hs
          subst hs
          exact ⟨rfl, fun _ _ hb => Or.inl hb, fun _ _ hb => hb, fun a ha => Or.inl ha,
            fun a ha => ha⟩

theorem step_inv (L : Nat) (A : List Nat) (r r1 : RunState) (i : Nat)
    (hinv : RunInv L A r) (hstep : step r i = some r1) : RunInv L A r1 := by
  obtain ⟨hlen, honly, hall, hpend⟩ := hinv
  unfold step at hstep
  cases hg : r.routines[i]? with
  | none => rw [hg] at hstep; simp at hstep
  | some g =>
    rw [hg] at hstep
    simp only at hstep
    cases hp : stepRoutine r.storage g with
    | none => rw [hp] at hstep; simp at hstep
    | some p =>
      rw [hp, Option.map_some', Option.some.injEq] at hstep
      subst hstep
      obtain ⟨ip, hip, _, f1, f2, f3, f4, f5⟩ := stepRoutine_facts r.storage g p hp
      have hi : i < r.routines.length := by
        rcases Nat.lt_or_ge i r.routines.length with hl | hl
        · exact hl
        · rw [List.getElem?_eq_none hl] at hg; simp at hg
      refine ⟨by rw [f1, hlen], ?_, ?_, ?_⟩
      · intro w b hb
        rcases f2 w b hb with h1 | ⟨h1, h2⟩
        · exact honly w b h1
        · exact ⟨ip, (hpend i g hg ip hip).1, h1, h2⟩
      · intro a ha
        rcases hall a ha with h1 | ⟨j, g2, hj, haj⟩
        · exact Or.inl (f3 _ _ h1)
        · by_cases hij : i = j
          · subst hij
            rw [hg, Option.some.injEq] at hj
            subst hj
            rcases f4 a haj with h2 | h2
            · exact Or.inr ⟨i, p.2, by simp [List.getElem?_set, hi], h2⟩
            · exact Or.inl h2
          · exact Or.inr ⟨j, g2, by simp [List.getElem?_set, hij, hj], haj⟩
      · intro j g2 hj a ha
        simp only [List.getElem?_set] at hj
        by_cases hij : i = j
        · subst hij
          simp only [if_true, hi] at hj
          rw [Option.some.injEq] at hj
          subst hj
          exact hpend i g hg a (f5 a ha)
        · simp only [hij, if_false] at hj
          exact hpend j g2 hj a ha

theorem runSchedule_inv (L : Nat) (A : List Nat) (sched : List Nat) :
    ∀ (r r1 : RunState), RunInv L A r → runSchedule r sched = some r1 → RunInv L A r1 := by
  induction sched with
  | nil =>
    intro r r1 hinv hrun
    simp only [runSchedule, Option.some.injEq] at hrun
    subst hrun
    exact hinv
  | cons i sched ih =>
    intro r r1 hinv hrun
    simp only [runSchedule] at hrun
    cases hs : step r i with
    | none => rw [hs] at hrun; simp at hrun
    | some r2 =>
      rw [hs, Option.some_bind] at hrun
      exact ih r2 r1 (step_inv L A r r2 i hinv hs) hrun

theorem startRun_inv (L : Nat) (calls : List (List Nat))
    (hA : ∀ a ∈ calls.flatten, a / 64 < L) :
    RunInv L calls.flatten (startRun ⟨List.replicate L 0⟩ calls) := by
  refine ⟨by simp [startRun], ?_, ?_, ?_⟩
  · intro w b hb
    simp only [startRun] at hb
    rw [bitSet_zero_bitmap] at hb
    simp at hb
  · intro a ha
    right
    obtain ⟨l, hl, hal⟩ := List.mem_flatten.1 ha
    obtain ⟨j, hj, hjl⟩ := List.getElem_of_mem hl
    refine ⟨j, ⟨l, none⟩, ?_, hal⟩
    simp [startRun, List.getElem?_map, List.getElem?_eq_getElem hj, hjl]
  · intro j g hj a ha
    simp only [startRun, List.getElem?_map] at hj
    cases hc : calls[j]? with
    | none => rw [hc] at hj; simp at hj
    | some l =>
      rw [hc, Option.map_some', Option.some.injEq] at hj
      subst hj
      have hmem : a ∈ calls.flatten :=
        List.mem_flatten.2 ⟨l, List.getElem?_mem hc, ha⟩
      exact ⟨hmem, hA a hmem⟩

theorem run_count (L : Nat) (calls : List (List Nat))
    (hA : ∀ a ∈ calls.flatten, a / 64 < L) (sched : List Nat) (r : RunState)
    (hrun : runSchedule (startRun ⟨List.replicate L 0⟩ calls) sched = some r)
    (hdone : allReturned r = true) :
    GetUniqueCount r.storage = calls.flatten.dedup.length ∧
      ∀ a ∈ calls.flatten, bitSet r.storage (a / 64) (a % 64) = true := by
  obtain ⟨hlen, honly, hall, _⟩ := runSchedule_inv L calls.flatten sched _ r
    (startRun_inv L calls hA) hrun
  have hbits : ∀ a ∈ calls.flatten, bitSet r.storage (a / 64) (a % 64) = true := by
    intro a ha
    rcases hall a ha with h1 | ⟨j, g, hj, hag⟩
    · exact h1
    · have hg : g.pending.isEmpty = true :=
        (List.all_eq_true.1 hdone) g (List.getElem?_mem hj)
      rw [List.isEmpty_iff] at hg
      rw [hg] at hag
      simp at hag
  exact ⟨count_of_bits L calls.flatten hA r.storage hlen honly hbits, hbits⟩

theorem stepRoutine_isSome (h : Storage) (g : Goroutine) (ip : Nat) (rest : List Nat)
    (hp : g.pending = ip :: rest) (hi : ip / 64 < h.bitmap.length) :
    ∃ p, stepRoutine h g = some p := by
  unfold stepRoutine
  rw [hp]
  simp only [List.getElem?_eq_getElem hi]
  cases g.loaded with
  | none =>
    simp only
    split <;> exact ⟨_, rfl⟩
  | some cur =>
    simp only
    split <;> exact ⟨_, rfl⟩

theorem overlapping_ranges_distinct :
    ([List.range 200000, (List.range 200000).map (fun k => 100000 + k)].flatten).dedup.length
      = 300000 := by
  rw [← List.card_toFinset]
  have hset : ([List.range 200000,
      (List.range 200000).map (fun k => 100000 + k)].flatten).toFinset
      = Finset.range 300000 := by
    ext x
    simp only [List.flatten_cons, List.flatten_nil, List.append_nil, List.toFinset_append,
      Finset.mem_union, List.mem_toFinset, List.mem_range, List.mem_map, Finset.mem_range]
    constructor
    · rintro (h | ⟨k, hk, rfl⟩) <;> omega
    · intro hx
      rcases Nat.lt_or_ge x 200000 with h | h
      · exact Or.inl h
      · exact Or.inr ⟨x - 100000, by omega, by omega⟩
  rw [hset, Finset.card_range]

theorem runSchedule_append (s1 s2 : List Nat) :
    ∀ r : RunState, runSchedule r (s1 ++ s2) = (runSchedule r s1).bind (fun r1 => runSchedule r1 s2) := by
  induction s1 with
  | nil => intro r; rfl
  | cons i s1 ih =>
    intro r
    simp only [List.cons_append, runSchedule]
    cases step r i with
    | none => rfl
    | some r1 => simp only [Option.some_bind]; exact ih r1

theorem step_at (h : Storage) (pre post : List Goroutine) (g : Goroutine)
    (p : Storage × Goroutine) (hs : stepRoutine h g = some p) :
    step ⟨h, pre ++ g :: post⟩ pre.length = some ⟨p.1, pre ++ p.2 :: post⟩ := by
  have hget : (pre ++ g :: post)[pre.length]? = some g := by
    rw [List.getElem?_append_right (Nat.le_refl _)]
    simp
  have hset : (pre ++ g :: post).set pre.length p.2 = pre ++ p.2 :: post := by
    rw [List.set_append_right _ _ (Nat.le_refl _)]
    simp
  unfold step
  simp only [hget, hs, Option.map_some', hset]

/-- Run alone, a goroutine about to `Load` completes its current call in at most two
steps. -/
theorem solo_call (h : Storage) (pre post : List Goroutine) (ip : Nat) (rest : List Nat)
    (hi : ip / 64 < h.bitmap.length) :
    ∃ sched h1, runSchedule ⟨h, pre ++ ⟨ip :: rest, none⟩ :: post⟩ sched
        = some ⟨h1, pre ++ ⟨rest, none⟩ :: post⟩ ∧
      h1.bitmap.length = h.bitmap.length := by
  by_cases hm : h.bitmap[ip / 64] &&& 1 <<< (ip % 64) ≠ 0
  · have hs : stepRoutine h ⟨ip :: rest, none⟩ = some (h, ⟨rest, none⟩) := by
      simp [stepRoutine, List.getElem?_eq_getElem hi, hm]
    exact ⟨[pre.length], h, by simp [runSchedule, step_at h pre post _ _ hs], rfl⟩
  · have hs1 : stepRoutine h ⟨ip :: rest, none⟩
        = some (h, ⟨ip :: rest, some h.bitmap[ip / 64]⟩) := by
      simp only [stepRoutine, List.getElem?_eq_getElem hi]
      rw [if_neg hm]
    have hs2 : stepRoutine h ⟨ip :: rest, some h.bitmap[ip / 64]⟩
        = some (⟨h.bitmap.set (ip / 64) (h.bitmap[ip / 64] ||| 1 <<< (ip % 64))⟩,
            ⟨rest, none⟩) := by
      simp [stepRoutine, List.getElem?_eq_getElem hi]
    refine ⟨[pre.length, pre.length],
      ⟨h.bitmap.set (ip / 64) (h.bitmap[ip / 64] ||| 1 <<< (ip % 64))⟩, ?_, ?_⟩
    · simp only [runSchedule]
      rw [step_at h pre post _ _ hs1, Option.some_bind, step_at h pre post _ _ hs2,
        Option.some_bind]
    · simp

theorem solo_routine (l : List Nat) : ∀ (h : Storage) (pre post : List Goroutine),
    (∀ a ∈ l, a / 64 < h.bitmap.length) →
    ∃ sched h1, runSchedule ⟨h, pre ++ ⟨l, none⟩ :: post⟩ sched
        = some ⟨h1, pre ++ ⟨[], none⟩ :: post⟩ ∧
      h1.bitmap.length = h.bitmap.length := by
  induction l with
  | nil => intro h pre post _; exact ⟨[], h, rfl, rfl⟩
  | cons ip rest ih =>
    intro h pre post hl
    obtain ⟨s1, h1, hr1, hl1⟩ := solo_call h pre post ip rest
      (hl ip (List.mem_cons_self ip rest))
    obtain ⟨s2, h2, hr2, hl2⟩ := ih h1 pre post
      (fun a ha => by rw [hl1]; exact hl a (List.mem_cons_of_mem ip ha))
    exact ⟨s1 ++ s2, h2, by rw [runSchedule_append, hr1, Option.some_bind, hr2],
      by rw [hl2, hl1]⟩

theorem solo_all (todo : List (List Nat)) : ∀ (h : Storage) (pre : List Goroutine),
    (∀ a ∈ todo.flatten, a / 64 < h.bitmap.length) →
    ∃ sched h1, runSchedule ⟨h, pre ++ todo.map (fun l => ⟨l, none⟩)⟩ sched
        = some ⟨h1, pre ++ todo.map (fun _ => ⟨[], none⟩)⟩ := by
  induction todo with
  | nil => intro h pre _; exact ⟨[], h, rfl⟩
  | cons l ls ih =>
    intro h pre hl
    obtain ⟨s1, h1, hr1, hl1⟩ := solo_routine l h pre (ls.map (fun l => ⟨l, none⟩))
      (fun a ha => hl a (by simp [ha]))
    obtain ⟨s2, h2, hr2⟩ := ih h1 (pre ++ [⟨[], none⟩])
      (fun a ha => by rw [hl1]; exact hl a (by simp [ha]))
    refine ⟨s1 ++ s2, h2, ?_⟩
    simp only [List.map_cons]
    rw [runSchedule_append, hr1, Option.some_bind]
    simpa using hr2

/-- Every start of a run has an interleaving in which all calls return. -/
theorem exists_complete_run (h : Storage) (calls : List (List Nat))
    (hl : ∀ a ∈ calls.flatten, a / 64 < h.bitmap.length) :
    ∃ sched r, runSchedule (startRun h calls) sched = some r ∧ allReturned r = true := by
  obtain ⟨sched, h1, hr⟩ := solo_all calls h [] hl
  refine ⟨sched, _, by simpa [startRun] using hr, ?_⟩
  simp [allReturned]

/-- C16. Goroutines call `Add` concurrently, each on its own list of addresses; a run
is any interleaving of their atomic `Load` and `CompareAndSwap` steps. Some
interleaving lets all calls return; in every state a run reaches, a goroutine with a
call left can take its next step; and once all calls have returned every added
address has its bit set and `GetUniqueCount` is the number of distinct addresses
added, for a zero bitmap of any length that holds the addresses and for `New` with
32-bit addresses; it is 300000 for the ranges 0..199999 and 100000..299999. -/
theorem concurrent_adds_not_lost :
    (∀ (L : Nat) (calls : List (List Nat)), (∀ a ∈ calls.flatten, a / 64 < L) →
      (∃ sched r, runSchedule (startRun ⟨List.replicate L 0⟩ calls) sched = some r ∧
        allReturned r = true) ∧
      ∀ (sched : List Nat) (r : RunState),
        runSchedule (startRun ⟨List.replicate L 0⟩ calls) sched = some r →
        (∀ (i : Nat) (g : Goroutine), r.routines[i]? = some g → g.pending ≠ [] →
          ∃ r1, step r i = some r1) ∧
        (allReturned r = true →
          GetUniqueCount r.storage = calls.flatten.dedup.length ∧
          ∀ a ∈ calls.flatten, bitSet r.storage (a / 64) (a % 64) = true)) ∧
    (∀ (calls : List (List Nat)) (sched : List Nat) (r : RunState),
      (∀ a ∈ calls.flatten, a < 2 ^ 32) →
      runSchedule (startRun New calls) sched = some r → allReturned r = true →
      GetUniqueCount r.storage = calls.flatten.dedup.length) ∧
    (∀ (sched : List Nat) (r : RunState),
      runSchedule
        (startRun New [List.range 200000, (List.range 200000).map (fun k => 100000 + k)])
        sched = some r →
      allReturned r = true → GetUniqueCount r.storage = 300000) := by
  have hNew : ∀ (calls : List (List Nat)) (sched : List Nat) (r : RunState),
      (∀ a ∈ calls.flatten, a < 2 ^ 32) →
      runSchedule (startRun New calls) sched = some r → allReturned r = true →
      GetUniqueCount r.storage = calls.flatten.dedup.length := by
    intro calls sched r hA hrun hdone
    have h26 : (1 <<< 32) / 64 = 67108864 := by decide
    unfold New at hrun
    rw [h26] at hrun
    exact (run_count 67108864 calls (fun a ha => by have := hA a ha; omega) sched r hrun
      hdone).1
  refine ⟨?_, hNew, ?_⟩
  · intro L calls hA
    refine ⟨exists_complete_run ⟨List.replicate L 0⟩ calls (by simpa using hA), ?_⟩
    intro sched r hrun
    refine ⟨?_, run_count L calls hA sched r hrun⟩
    intro i g hg hne
    obtain ⟨hlen, _, _, hpend⟩ := runSchedule_inv L calls.flatten sched _ r
      (startRun_inv L calls hA) hrun
    obtain ⟨ip, rest, hp⟩ := List.exists_cons_of_ne_nil hne
    obtain ⟨p, hstepR⟩ := stepRoutine_isSome r.storage g ip rest hp (by
      rw [hlen]
      exact (hpend i g hg ip (by rw [hp]; exact List.mem_cons_self ip rest)).2)
    exact ⟨⟨p.1, r.routines.set i p.2⟩, by simp [step, hg, hstepR]⟩
  · intro sched r hrun hdone
    rw [hNew _ sched r ?_ hrun hdone, overlapping_ranges_distinct]
    intro a ha
    simp only [List.flatten_cons, List.flatten_nil, List.append_nil, List.mem_append,
      List.mem_range, List.mem_map] at ha
    rcases ha with h | ⟨k, hk, rfl⟩ <;> omega

/-- Instance of C16: two goroutines add 0 and 1, bits of the same word. Both load the
word 0, the first swaps in 1, the swap of the second fails, and its second try
succeeds; the word ends as 3 and the count is 2. -/
theorem concurrent_adds_not_lost_witness :
    (∀ a ∈ [[0], [1]].flatten, a / 64 < 1) ∧
    runSchedule (startRun ⟨List.replicate 1 0⟩ [[0], [1]]) [0, 1, 0, 1]
      = some ⟨⟨[1]⟩, [⟨[], none⟩, ⟨[1], none⟩]⟩ ∧
    runSchedule (startRun ⟨List.replicate 1 0⟩ [[0], [1]]) [0, 1, 0, 1, 1, 1]
      = some ⟨⟨[3]⟩, [⟨[], none⟩, ⟨[], none⟩]⟩ ∧
    allReturned ⟨⟨[3]⟩, [⟨[], none⟩, ⟨[], none⟩]⟩ = true ∧
    GetUniqueCount ⟨[3]⟩ = [[0], [1]].flatten.dedup.length :=
  ⟨by decide, by decide, by decide, by decide,
    (((concurrent_adds_not_lost.1 1 [[0], [1]] (by decide)).2 [0, 1, 0, 1, 1, 1]
      ⟨⟨[3]⟩, [⟨[], none⟩, ⟨[], none⟩]⟩ (by decide)).2 (by decide)).1⟩

end Storage


/-! ## Properties of the loader -/

namespace Loader

theorem ReadBytes_length (rd : List UInt8) :
    (ReadBytes rd).1.length + (ReadBytes rd).2.1.length = rd.length := by
  induction rd with
  | nil => rfl
  | cons c rest ih =>
    unfold ReadBytes
    by_cases hc : c = 10
    · simp [hc, Nat.add_comm]
    · simp only [hc, if_false, List.length_cons]
      omega

theorem ReadBytes_cons_ne (c : UInt8) (rest : List UInt8) (hc : c ≠ 10) :
    ReadBytes (c :: rest)
      = (c :: (ReadBytes rest).1, (ReadBytes rest).2.1, (ReadBytes rest).2.2) := by
  rw [ReadBytes, if_neg hc]

theorem ReadBytes_ne_nil (c : UInt8) (rest : List UInt8) :
    (ReadBytes (c :: rest)).1 ≠ [] := by
  unfold ReadBytes
  by_cases hc : c = 10 <;> simp [hc]

theorem ReadBytes_eof (rd : List UInt8) (h : (ReadBytes rd).2.2 = true) :
    (ReadBytes rd).2.1 = [] := by
  induction rd with
  | nil => rfl
  | cons c rest ih =>
    unfold ReadBytes at h ⊢
    by_cases hc : c = 10
    · simp [hc] at h
    · simp only [hc, if_false] at h ⊢
      exact ih h

theorem TrimSuffix_cons (c : UInt8) (l : List UInt8) (hl : l ≠ []) :
    TrimSuffix (c :: l) = c :: TrimSuffix l := by
  obtain ⟨x, xs, rfl⟩ := List.exists_cons_of_ne_nil hl
  unfold TrimSuffix
  rw [List.getLast?_cons_cons, List.dropLast_cons₂]
  split <;> rfl

theorem lines_ReadBytes (c : UInt8) (rest : List UInt8) :
    lines (c :: rest)
      = TrimSuffix (ReadBytes (c :: rest)).1 :: lines (ReadBytes (c :: rest)).2.1 := by
  induction rest generalizing c with
  | nil =>
    by_cases hc : c = 10
    · subst hc; rfl
    · simp [lines, ReadBytes, hc, TrimSuffix]
  | cons d rest ih =>
    by_cases hc : c = 10
    · subst hc
      simp [lines, ReadBytes, TrimSuffix]
    · have ih1 := ih d
      rw [lines, if_neg hc, ih1, ReadBytes_cons_ne c (d :: rest) hc,
        TrimSuffix_cons c _ (ReadBytes_ne_nil d rest)]

/-- The loop of a worker whose `pos` is the true offset and whose span ends at the end
of the file handles every line left to read. -/
theorem scan_to_end (parse : List UInt8 → Option Nat) :
    ∀ (fuel : Nat) (rd : List UInt8) (pos stop : Nat),
      rd.length < fuel → pos + rd.length = stop →
      scan parse fuel pos stop rd = some ((lines rd).filterMap parse) := by
  intro fuel
  induction fuel with
  | zero => intro rd pos stop h; omega
  | succ fuel ih =>
    intro rd pos stop hf hp
    cases rd with
    | nil =>
      have : ¬ pos < stop := by simp at hp; omega
      simp [scan, this, lines]
    | cons c rest =>
      have hlen := ReadBytes_length (c :: rest)
      simp only [List.length_cons] at hf hp hlen
      have hlt : pos < stop := by omega
      have hne := ReadBytes_ne_nil c rest
      have hpos : 0 < (ReadBytes (c :: rest)).1.length := List.length_pos.2 hne
      have hrec := ih (ReadBytes (c :: rest)).2.1 (pos + (ReadBytes (c :: rest)).1.length) stop
        (by omega) (by omega)
      rw [lines_ReadBytes]
      unfold scan
      simp only [hlt, if_true]
      have hnb : ¬ ((ReadBytes (c :: rest)).2.2 = true ∧ (ReadBytes (c :: rest)).1.length = 0) :=
        fun h => by omega
      rw [if_neg hnb]
      cases hparse : parse (TrimSuffix (ReadBytes (c :: rest)).1) with
      | none =>
        simp only [List.filterMap_cons, hparse]
        exact hrec
      | some ip =>
        simp only [List.filterMap_cons, hparse]
        by_cases heof : (ReadBytes (c :: rest)).2.2 = true
        · simp [heof, ReadBytes_eof _ heof, lines]
        · simp [heof, hrec]

theorem spans_one (size : Nat) : spans size 1 = [(0, size)] := by
  simp [spans, List.range_succ]

theorem uniqueCount_eq (adds : List (List Nat)) (h : ∀ a ∈ adds.flatten, a < 2 ^ 32) :
    uniqueCount adds = some adds.flatten.dedup.length := by
  obtain ⟨h1, hAll, _, _, hcount⟩ := Storage.AddAll_New adds.flatten h
  rw [uniqueCount, hAll, Option.map_some', hcount]

theorem spans_getElem? (size n i : Nat) (hi : i < n) :
    (spans size n)[i]?
      = some (size / n * i, if i = n - 1 then size else size / n * i + size / n) := by
  simp [spans, List.getElem?_range hi, hi]

/-- C1 (evaluation of the code). On the 16-byte file of the two lines 1.1.1.1 and
2.2.2.2 the lines parse to two addresses, and with 2 workers the spans are
`[0, 8)` and `[8, 16)`; the first worker adds 1.1.1.1 and the second adds nothing,
so 2.2.2.2, whose first byte is at offset 8, is passed to `Add` by no worker. -/
theorem do_two_workers_drops_line :
    ∀ v6, (lines (bytes "1.1.1.1\n2.2.2.2\n")).filterMap (ParseIP v6) = [16843009, 33686018] ∧
      spans 16 2 = [(0, 8), (8, 16)] ∧
      Do (ParseIP v6) (File.regular (bytes "1.1.1.1\n2.2.2.2\n")) 2
        = some (Except.ok [[16843009], []]) :=
  fun _ => ⟨rfl, by decide, rfl⟩

/-- C2 (evaluation of the code). For the file of the two lines 1.1.1.1 and 2.2.2.2
the count is 2 with one worker and 1 with two workers; for the file of the lines
192.168.0.1, 10.0.0.1, 10.0.0.1 it is 2 with one and with two workers. -/
theorem runCount_differs_by_workers :
    ∀ v6, runCount (ParseIP v6) (bytes "1.1.1.1\n2.2.2.2\n") 1 = some 2 ∧
      runCount (ParseIP v6) (bytes "1.1.1.1\n2.2.2.2\n") 2 = some 1 ∧
      runCount (ParseIP v6) (bytes "192.168.0.1\n10.0.0.1\n10.0.0.1\n") 1 = some 2 ∧
      runCount (ParseIP v6) (bytes "192.168.0.1\n10.0.0.1\n10.0.0.1\n") 2 = some 2 := by
  intro v6
  have h1 : Do (ParseIP v6) (File.regular (bytes "1.1.1.1\n2.2.2.2\n")) 1
      = some (Except.ok [[16843009, 33686018]]) := rfl
  have h2 : Do (ParseIP v6) (File.regular (bytes "1.1.1.1\n2.2.2.2\n")) 2
      = some (Except.ok [[16843009], []]) := rfl
  have h3 : Do (ParseIP v6) (File.regular (bytes "192.168.0.1\n10.0.0.1\n10.0.0.1\n")) 1
      = some (Except.ok [[3232235521, 167772161, 167772161]]) := rfl
  have h4 : Do (ParseIP v6) (File.regular (bytes "192.168.0.1\n10.0.0.1\n10.0.0.1\n")) 2
      = some (Except.ok [[3232235521, 167772161], [167772161]]) := rfl
  refine ⟨?_, ?_, ?_, ?_⟩
  · rw [runCount, h1]
    simp only
    rw [uniqueCount_eq _ (by decide)]
    decide
  · rw [runCount, h2]
    simp only
    rw [uniqueCount_eq _ (by decide)]
    decide
  · rw [runCount, h3]
    simp only
    rw [uniqueCount_eq _ (by decide)]
    decide
  · rw [runCount, h4]
    simp only
    rw [uniqueCount_eq _ (by decide)]
    decide

/-- C3 (evaluation of the code). In the 25-byte file of the lines 1.1.1.1, 10.1.1.1,
1.1.1.1 with 3 workers the boundary 16 is the newline of the line 10.1.1.1 (bytes
8 to 16), yet no worker passes 10.1.1.1 to `Add`; in the 16-byte file of the lines
1.1.1.1, 2.2.2.2 with 8 workers the boundaries 10, 12, 14 fall inside the line
2.2.2.2 (bytes 8 to 15), and three workers pass it to `Add`. -/
theorem straddling_line_not_once :
    ∀ v6, spans 25 3 = [(0, 8), (8, 16), (16, 25)] ∧
      (bytes "1.1.1.1\n10.1.1.1\n1.1.1.1\n").drop 8 = bytes "10.1.1.1\n1.1.1.1\n" ∧
      ParseIP v6 (bytes "10.1.1.1") = some 167837953 ∧
      Do (ParseIP v6) (File.regular (bytes "1.1.1.1\n10.1.1.1\n1.1.1.1\n")) 3
        = some (Except.ok [[16843009], [16843009], [16843009]]) ∧
      (spans 16 8).map Prod.fst = [0, 2, 4, 6, 8, 10, 12, 14] ∧
      Do (ParseIP v6) (File.regular (bytes "1.1.1.1\n2.2.2.2\n")) 8
        = some (Except.ok [[16843009], [33686018], [33686018], [33686018], [], [], [], []]) :=
  fun _ => ⟨by decide, by decide, rfl, rfl, by decide, rfl⟩

/-- C5. For every file size and worker count `n >= 1` the loop of `Do` computes
exactly `n` spans; span `i < n - 1` is `[i * b, (i + 1) * b)` with `b = size / n`, the
last is `[(n - 1) * b, size)` of length `b + size % n`; every span has
`start <= end`, the first starts at 0, each end is the next start and the last one
stops at `size`. -/
theorem spans_partition (size n : Nat) (hn : 1 ≤ n) :
    (spans size n).length = n ∧
    (∀ i, i + 1 < n →
      (spans size n)[i]? = some (i * (size / n), (i + 1) * (size / n))) ∧
    (spans size n)[n - 1]? = some ((n - 1) * (size / n), size) ∧
    size - (n - 1) * (size / n) = size / n + size % n ∧
    (∀ s ∈ spans size n, s.1 ≤ s.2) ∧
    (∃ e, (spans size n)[0]? = some (0, e)) ∧
    (∀ i s t, (spans size n)[i]? = some s → (spans size n)[i + 1]? = some t → s.2 = t.1) ∧
    (∃ s, (spans size n).getLast? = some (s, size)) := by
  obtain ⟨m, rfl⟩ : ∃ m, n = m + 1 := ⟨n - 1, by omega⟩
  have hdm : (m + 1) * (size / (m + 1)) + size % (m + 1) = size := Nat.div_add_mod size (m + 1)
  have hlen : (spans size (m + 1)).length = m + 1 := by simp [spans]
  have hget : ∀ i, i < m + 1 → (spans size (m + 1))[i]?
      = some (i * (size / (m + 1)),
          if i = m then size else i * (size / (m + 1)) + size / (m + 1)) := by
    intro i hi
    rw [spans_getElem? size (m + 1) i hi]
    simp [Nat.mul_comm]
  simp only [Nat.add_sub_cancel]
  generalize size / (m + 1) = b at hdm hget ⊢
  generalize size % (m + 1) = r at hdm ⊢
  rw [Nat.succ_mul] at hdm
  have hmem : ∀ s ∈ spans size (m + 1), ∃ i, i < m + 1 ∧
      s = (i * b, if i = m then size else i * b + b) := by
    intro s hs
    obtain ⟨i, hi, hsi⟩ := List.getElem_of_mem hs
    rw [hlen] at hi
    have := hget i hi
    rw [List.getElem?_eq_getElem (by rw [hlen]; exact hi), hsi] at this
    exact ⟨i, hi, Option.some.inj this⟩
  refine ⟨hlen, ?_, ?_, ?_, ?_, ?_, ?_, ?_⟩
  · intro i hi
    rw [hget i (by omega), if_neg (by omega), Nat.succ_mul]
  · rw [hget m (by omega), if_pos rfl]
  · omega
  · intro s hs
    obtain ⟨i, hi, rfl⟩ := hmem s hs
    by_cases hl : i = m
    · subst hl
      simp only [if_true]
      omega
    · simp only [hl, if_false]
      omega
  · exact ⟨if 0 = m then size else 0 * b + b, by rw [hget 0 (by omega), Nat.zero_mul]⟩
  · intro i s t hs ht
    have hi : i + 1 < m + 1 := by
      rcases Nat.lt_or_ge (i + 1) (m + 1) with h | h
      · exact h
      · rw [List.getElem?_eq_none (by rw [hlen]; exact h)] at ht; simp at ht
    rw [hget i (by omega), if_neg (by omega)] at hs
    rw [hget (i + 1) hi] at ht
    simp only [Option.some.injEq] at hs ht
    rw [← hs, ← ht]
    exact (Nat.succ_mul i b).symm
  · refine ⟨m * b, ?_⟩
    rw [List.getLast?_eq_getElem?, hlen, Nat.add_sub_cancel, hget m (by omega), if_pos rfl]

/-- Instance of C5 at a file of 10 bytes and 3 workers. -/
theorem spans_partition_witness :
    1 ≤ 3 ∧ spans 10 3 = [(0, 3), (3, 6), (6, 10)] ∧ (spans 10 3).length = 3 :=
  ⟨by decide, by decide, (spans_partition 10 3 (by decide)).1⟩

/-- C6 (evaluation of the code). In the 24-byte file of the lines 1.1.1.1, 2.2.2.2,
3.3.3.3 with 3 workers the lines start at the offsets 0, 8, 16, the starts of the
spans `[0, 8)`, `[8, 16)`, `[16, 24)`. The worker of `[8, 16)` skips the line 2.2.2.2
of its own span and adds 3.3.3.3, whose first byte is at its span end; the worker of
`[16, 24)` adds nothing. -/
theorem line_owner_mismatch :
    ∀ v6, spans 24 3 = [(0, 8), (8, 16), (16, 24)] ∧
      processBatch (ParseIP v6) (bytes "1.1.1.1\n2.2.2.2\n3.3.3.3\n") 0 8 = some [16843009] ∧
      processBatch (ParseIP v6) (bytes "1.1.1.1\n2.2.2.2\n3.3.3.3\n") 8 16 = some [50529027] ∧
      processBatch (ParseIP v6) (bytes "1.1.1.1\n2.2.2.2\n3.3.3.3\n") 16 24 = some [] ∧
      ParseIP v6 (bytes "2.2.2.2") = some 33686018 ∧
      ParseIP v6 (bytes "3.3.3.3") = some 50529027 :=
  fun _ => ⟨by decide, rfl, rfl, rfl, rfl, rfl⟩

/-- C7. With one worker `Do` returns, and the values passed to `Add` are, in file
order, exactly the parse results of the lines that parse: a line that fails to
parse adds nothing and does not stop the scan, and a last line without newline is
handled like the others. The empty text does not parse. The lines 8.8.8.8, invalid,
(empty), 8.8.8.8, 1.1.1.1 give the adds 8.8.8.8, 8.8.8.8, 1.1.1.1 and a unique count
of 2. -/
theorem single_worker_adds :
    (∀ (parse : List UInt8 → Option Nat) (content : List UInt8),
      Do parse (File.regular content) 1
        = some (Except.ok [(lines content).filterMap parse])) ∧
    (∀ v6, ParseIP v6 [] = none) ∧
    lines (bytes "8.8.8.8\ninvalid\n\n8.8.8.8\n1.1.1.1\n")
      = [bytes "8.8.8.8", bytes "invalid", [], bytes "8.8.8.8", bytes "1.1.1.1"] ∧
    (∀ v6, Do (ParseIP v6) (File.regular (bytes "8.8.8.8\ninvalid\n\n8.8.8.8\n1.1.1.1\n")) 1
      = some (Except.ok [[134744072, 134744072, 16843009]])) ∧
    (∀ v6, runCount (ParseIP v6) (bytes "8.8.8.8\ninvalid\n\n8.8.8.8\n1.1.1.1\n") 1
      = some 2) ∧
    (∀ v6, Do (ParseIP v6) (File.regular (bytes "8.8.8.8\ninvalid\n1.1.1.1")) 1
      = some (Except.ok [[134744072, 16843009]])) := by
  refine ⟨?_, fun _ => rfl, by decide, fun _ => rfl, ?_, fun _ => rfl⟩
  · intro parse content
    have hscan := scan_to_end parse (content.length + 1) content 0 content.length
      (by omega) (by omega)
    simp only [Do, spans_one, Nat.one_ne_zero, if_false]
    rw [List.mapM_cons, List.mapM_nil]
    simp [processBatch, seekAndAlign, hscan]
  · intro v6
    have hDo : Do (ParseIP v6) (File.regular (bytes "8.8.8.8\ninvalid\n\n8.8.8.8\n1.1.1.1\n")) 1
        = some (Except.ok [[134744072, 134744072, 16843009]]) := rfl
    rw [runCount, hDo]
    simp only
    rw [uniqueCount_eq _ (by decide)]
    decide

theorem ReadBytes_append (rd : List UInt8) : (ReadBytes rd).1 ++ (ReadBytes rd).2.1 = rd := by
  induction rd with
  | nil => rfl
  | cons c rest ih =>
    by_cases hc : c = 10
    · subst hc; rfl
    · rw [ReadBytes_cons_ne c rest hc]
      simp [ih]

theorem chunks_ReadBytes (c : UInt8) (rest : List UInt8) :
    chunks (c :: rest)
      = (ReadBytes (c :: rest)).1 :: chunks (ReadBytes (c :: rest)).2.1 := by
  induction rest generalizing c with
  | nil =>
    by_cases hc : c = 10
    · subst hc; rfl
    · simp [chunks, ReadBytes, hc]
  | cons d rest ih =>
    by_cases hc : c = 10
    · subst hc
      simp [chunks, ReadBytes]
    · rw [chunks, if_neg hc, ih d, ReadBytes_cons_ne c (d :: rest) hc]

theorem scan_eq_scanTexts (parse : List UInt8 → Option Nat) :
    ∀ (fuel pos stop : Nat) (rd : List UInt8),
      scan parse fuel pos stop rd
        = (scanTexts parse fuel pos stop rd).map (fun ts => ts.filterMap parse) := by
  intro fuel
  induction fuel with
  | zero => intro pos stop rd; rfl
  | succ fuel ih =>
    intro pos stop rd
    unfold scan scanTexts
    by_cases hlt : pos < stop
    · simp only [hlt, if_true]
      by_cases hb : (ReadBytes rd).2.2 = true ∧ (ReadBytes rd).1.length = 0
      · simp [hb]
      · rw [if_neg hb, if_neg hb]
        cases hp : parse (TrimSuffix (ReadBytes rd).1) with
        | none =>
          simp only [ih, Option.map_map]
          congr 1
          funext ts
          simp [List.filterMap_cons, hp]
        | some ip =>
          simp only
          by_cases heof : (ReadBytes rd).2.2 = true
          · simp [heof, List.filterMap_cons, hp]
          · simp only [heof, if_false, ih, Option.map_map, Bool.false_eq_true]
            congr 1
            funext ts
            simp [List.filterMap_cons, hp]
    · simp [hlt]

/-- With fuel above the number of unread bytes the loop ends, and the texts it
parses are the pieces of the unread rest that start within `stop - pos` bytes. -/
theorem scanTexts_eq (parse : List UInt8 → Option Nat) :
    ∀ (fuel : Nat) (rd : List UInt8) (pos stop : Nat), rd.length < fuel →
      scanTexts parse fuel pos stop rd
        = some ((takeBudget (stop - pos) (chunks rd)).map TrimSuffix) := by
  intro fuel
  induction fuel with
  | zero => intro rd pos stop h; omega
  | succ fuel ih =>
    intro rd pos stop hf
    unfold scanTexts
    by_cases hlt : pos < stop
    · have hbud : 0 < stop - pos := by omega
      simp only [hlt, if_true]
      cases rd with
      | nil => simp [ReadBytes, chunks, takeBudget]
      | cons c rest =>
        have hlen := ReadBytes_length (c :: rest)
        have hne := ReadBytes_ne_nil c rest
        have hpos : 0 < (ReadBytes (c :: rest)).1.length := List.length_pos.2 hne
        simp only [List.length_cons] at hf hlen
        have hrec := ih (ReadBytes (c :: rest)).2.1 (pos + (ReadBytes (c :: rest)).1.length)
          stop (by omega)
        have hsub : stop - (pos + (ReadBytes (c :: rest)).1.length)
            = stop - pos - (ReadBytes (c :: rest)).1.length := by omega
        have hnb : ¬ ((ReadBytes (c :: rest)).2.2 = true
            ∧ (ReadBytes (c :: rest)).1.length = 0) := fun h => by omega
        rw [if_neg hnb, chunks_ReadBytes, takeBudget, if_pos hbud, hrec, hsub]
        cases hp : parse (TrimSuffix (ReadBytes (c :: rest)).1) with
        | none => simp
        | some ip =>
          by_cases heof : (ReadBytes (c :: rest)).2.2 = true
          · simp [heof, ReadBytes_eof _ heof, chunks, takeBudget]
          · simp [heof]
    · have hbud : ¬ 0 < stop - pos := by omega
      simp only [hlt, if_false]
      cases hc : chunks rd with
      | nil => rfl
      | cons x xs => simp [takeBudget, hbud]

theorem processBatch_eq (parse : List UInt8 → Option Nat) (content : List UInt8)
    (start stop : Nat) :
    processBatch parse content start stop
      = some (((takeBudget (stop - start) (chunks (seekAndAlign content start))).map
          TrimSuffix).filterMap parse) := by
  unfold processBatch
  simp only
  rw [scan_eq_scanTexts, scanTexts_eq parse _ _ start stop (Nat.lt_succ_self _)]
  rfl

theorem mapM_eq_some_map {α β : Type} (f : α → Option β) (g : α → β) (l : List α)
    (h : ∀ x ∈ l, f x = some (g x)) : l.mapM f = some (l.map g) := by
  induction l with
  | nil => rfl
  | cons x xs ih =>
    rw [List.mapM_cons, h x (List.mem_cons_self x xs),
      ih (fun y hy => h y (List.mem_cons_of_mem x hy))]
    rfl

/-- The values worker `s` of `Do` passes to `Add`, as a function of the file. -/
theorem Do_regular (parse : List UInt8 → Option Nat) (content : List UInt8) (n : Nat)
    (hn : 1 ≤ n) :
    Do parse (File.regular content) n
      = some (Except.ok ((spans content.length n).map (fun s =>
          ((takeBudget (s.2 - s.1) (chunks (seekAndAlign content s.1))).map
            TrimSuffix).filterMap parse))) := by
  have hn0 : ¬ n = 0 := by omega
  simp only [Do, hn0, if_false]
  rw [mapM_eq_some_map _ _ _ (fun s _ => processBatch_eq parse content s.1 s.2)]
  rfl

theorem scan_of_span (parse : List UInt8 → Option Nat) :
    ∀ (fuel pos stop : Nat) (rd : List UInt8), stop - pos < fuel →
      ∃ adds, scan parse fuel pos stop rd = some adds := by
  intro fuel
  induction fuel with
  | zero => intro pos stop rd h; omega
  | succ fuel ih =>
    intro pos stop rd hf
    unfold scan
    by_cases hlt : pos < stop
    · simp only [hlt, if_true]
      by_cases hb : (ReadBytes rd).2.2 = true ∧ (ReadBytes rd).1.length = 0
      · exact ⟨[], by rw [if_pos hb]⟩
      · rw [if_neg hb]
        have hpos : 0 < (ReadBytes rd).1.length := by
          cases rd with
          | nil => simp [ReadBytes] at hb
          | cons c rest => exact List.length_pos.2 (ReadBytes_ne_nil c rest)
        obtain ⟨adds, hadds⟩ := ih (pos + (ReadBytes rd).1.length) stop (ReadBytes rd).2.1
          (by omega)
        cases hp : parse (TrimSuffix (ReadBytes rd).1) with
        | none => exact ⟨adds, hadds⟩
        | some ip =>
          by_cases heof : (ReadBytes rd).2.2 = true
          · exact ⟨[ip], by simp [heof]⟩
          · exact ⟨ip :: adds, by simp [heof, hadds]⟩
    · exact ⟨[], by simp [hlt]⟩

theorem scan_fuel_succ (parse : List UInt8 → Option Nat) :
    ∀ (fuel pos stop : Nat) (rd : List UInt8) (adds : List Nat),
      scan parse fuel pos stop rd = some adds →
      scan parse (fuel + 1) pos stop rd = some adds := by
  intro fuel
  induction fuel with
  | zero => intro pos stop rd adds h; simp [scan] at h
  | succ fuel ih =>
    intro pos stop rd adds h
    unfold scan at h ⊢
    by_cases hlt : pos < stop
    · simp only [hlt, if_true] at h ⊢
      by_cases hb : (ReadBytes rd).2.2 = true ∧ (ReadBytes rd).1.length = 0
      · rw [if_pos hb] at h ⊢; exact h
      · rw [if_neg hb] at h ⊢
        cases hp : parse (TrimSuffix (ReadBytes rd).1) with
        | none =>
          rw [hp] at h
          exact ih _ _ _ _ h
        | some ip =>
          rw [hp] at h
          simp only at h ⊢
          by_cases heof : (ReadBytes rd).2.2 = true
          · rw [if_pos heof] at h ⊢; exact h
          · rw [if_neg heof] at h ⊢
            cases hr : scan parse fuel (pos + (ReadBytes rd).1.length) stop (ReadBytes rd).2.1 with
            | none => rw [hr] at h; simp at h
            | some l =>
              rw [hr] at h
              rw [ih _ _ _ _ hr]
              exact h
    · simp only [hlt, if_false] at h ⊢
      exact h

theorem scan_fuel_le (parse : List UInt8 → Option Nat) (fuel fuel2 pos stop : Nat)
    (rd : List UInt8) (adds : List Nat) (h : scan parse fuel pos stop rd = some adds)
    (hle : fuel ≤ fuel2) : scan parse fuel2 pos stop rd = some adds := by
  induction hle with
  | refl => exact h
  | step _ ih => exact scan_fuel_succ parse _ _ _ _ _ ih

/-- C12. For a zero-byte file and every worker count `n >= 1`, `Do` returns without
error, none of the `n` workers passes a value to `Add`, and the unique count of a
Storage made by `New` stays 0. -/
theorem empty_file_no_adds (parse : List UInt8 → Option Nat) (n : Nat) (hn : 1 ≤ n) :
    Do parse (File.regular []) n = some (Except.ok (List.replicate n [])) ∧
    (List.replicate n ([] : List Nat)).flatten = [] ∧
    runCount parse [] n = some 0 ∧
    DoWith parse (File.regular []) n Storage.New = some (none, Storage.New) ∧
    Storage.GetUniqueCount Storage.New = 0 := by
  have hflat : (List.replicate n ([] : List Nat)).flatten = [] := by
    induction n with
    | zero => rfl
    | succ m ih =>
      rw [List.replicate_succ, List.flatten_cons, List.nil_append]
      rcases Nat.eq_zero_or_pos m with h0 | h0
      · subst h0; rfl
      · exact ih h0
  have hDo : Do parse (File.regular []) n = some (Except.ok (List.replicate n [])) := by
    rw [Do_regular parse [] n hn]
    congr 2
    apply List.eq_replicate_iff.2
    refine ⟨by simp [spans], ?_⟩
    intro l hl
    obtain ⟨s, _, rfl⟩ := List.mem_map.1 hl
    have : seekAndAlign [] s.1 = [] := by
      unfold seekAndAlign
      split <;> simp [ReadBytes]
    rw [this]
    rfl
  refine ⟨hDo, hflat, ?_, ?_, Storage.count_New⟩
  · rw [runCount, hDo]
    simp only [uniqueCount]
    rw [hflat]
    simp [Storage.AddAll, Storage.count_New]
  · rw [DoWith, hDo]
    simp only
    rw [hflat]
    rfl

/-- Instance of C12 with 5 workers. -/
theorem empty_file_no_adds_witness :
    1 ≤ 5 ∧
    Do (ParseIP (fun _ => none)) (File.regular []) 5 = some (Except.ok [[], [], [], [], []]) :=
  ⟨by decide, (empty_file_no_adds (ParseIP (fun _ => none)) 5 (by decide)).1⟩

/-- C13. `Do` returns an error exactly when `os.Open` or `file.Stat` fails. The error
wraps the cause, so `errors.Is` holds for it with every target it holds for with
the cause (with `os.ErrNotExist` for the `*fs.PathError` of a missing file); no
worker has started then and the Storage is unchanged. On an existing file `Do`
returns without error, whatever the parse results of its lines. -/
theorem do_error_iff_open_or_stat :
    (∀ (parse : List UInt8 → Option Nat) (file : File) (n : Nat), 1 ≤ n →
      ((∃ e, Do parse file n = some (Except.error e)) ↔
        ∃ err, file = File.openFails err ∨ file = File.statFails err)) ∧
    (∀ (parse : List UInt8 → Option Nat) (err : GoError) (n : Nat) (h : Storage),
      Do parse (File.openFails err) n
        = some (Except.error (GoError.wrap "error opening file" err)) ∧
      Do parse (File.statFails err) n
        = some (Except.error (GoError.wrap "error getting file size" err)) ∧
      DoWith parse (File.openFails err) n h
        = some (some (GoError.wrap "error opening file" err), h) ∧
      DoWith parse (File.statFails err) n h
        = some (some (GoError.wrap "error getting file size" err), h)) ∧
    (∀ (msg : String) (err target : GoError),
      errorsIs err target = true → errorsIs (GoError.wrap msg err) target = true) ∧
    errorsIs
      (GoError.wrap "error opening file"
        (GoError.wrap "open missing.txt"
          (GoError.plain "no such file or directory" ["file does not exist"])))
      (GoError.plain "file does not exist" []) = true ∧
    (∀ (parse : List UInt8 → Option Nat) (content : List UInt8) (n : Nat), 1 ≤ n →
      ∃ adds, Do parse (File.regular content) n = some (Except.ok adds) ∧
        adds.length = n) := by
  refine ⟨?_, fun _ _ _ _ => ⟨rfl, rfl, rfl, rfl⟩, ?_, by decide, ?_⟩
  · intro parse file n hn
    cases file with
    | openFails err => exact ⟨fun _ => ⟨err, Or.inl rfl⟩, fun _ => ⟨_, rfl⟩⟩
    | statFails err => exact ⟨fun _ => ⟨err, Or.inr rfl⟩, fun _ => ⟨_, rfl⟩⟩
    | regular content =>
      rw [Do_regular parse content n hn]
      constructor
      · rintro ⟨e, he⟩
        simp at he
      · rintro ⟨err, h | h⟩ <;> simp at h
  · intro msg err target h
    simp [errorsIs, h]
  · intro parse content n hn
    exact ⟨_, Do_regular parse content n hn, by simp [spans]⟩

/-- Instance of C13: a file of one invalid line with 2 workers gives no error, and a
failed `os.Open` gives one. -/
theorem do_error_iff_open_or_stat_witness :
    1 ≤ 2 ∧
    (∃ adds, Do (ParseIP (fun _ => none)) (File.regular (bytes "invalid\n")) 2
      = some (Except.ok adds) ∧ adds.length = 2) ∧
    ((∃ e, Do (ParseIP (fun _ => none)) (File.openFails (GoError.plain "denied" [])) 2
        = some (Except.error e)) ↔
      ∃ err, File.openFails (GoError.plain "denied" []) = File.openFails err ∨
        File.openFails (GoError.plain "denied" []) = File.statFails err) :=
  ⟨by decide,
   do_error_iff_open_or_stat.2.2.2.2 (ParseIP (fun _ => none)) (bytes "invalid\n") 2 (by decide),
   do_error_iff_open_or_stat.1 (ParseIP (fun _ => none)) (File.openFails (GoError.plain "denied" []))
     2 (by decide)⟩

/-- C20. The loop of `processBatch` ends for every file and span: an iteration exits
(empty read at end of file, or a valid last line at end of file) or moves `pos` on by
the length of a non-empty line, so `(end - start) + 1` iterations are enough, more
fuel does not change the result, `processBatch` returns a result equal to that of
the loop bounded by `(end - start) + 1`, and `Do` returns for every worker count
`n >= 1`. -/
theorem scan_terminates :
    (∀ rd : List UInt8,
      ((ReadBytes rd).2.2 = true ∧ (ReadBytes rd).1.length = 0) ∨
        0 < (ReadBytes rd).1.length) ∧
    (∀ (parse : List UInt8 → Option Nat) (pos stop : Nat) (rd : List UInt8),
      ∃ adds, scan parse (stop - pos + 1) pos stop rd = some adds) ∧
    (∀ (parse : List UInt8 → Option Nat) (fuel fuel2 pos stop : Nat) (rd : List UInt8)
      (adds : List Nat), scan parse fuel pos stop rd = some adds → fuel ≤ fuel2 →
        scan parse fuel2 pos stop rd = some adds) ∧
    (∀ (parse : List UInt8 → Option Nat) (content : List UInt8) (start stop : Nat),
      ∃ adds, processBatch parse content start stop = some adds ∧
        scan parse (stop - start + 1) start stop (seekAndAlign content start) = some adds) ∧
    (∀ (parse : List UInt8 → Option Nat) (content : List UInt8) (n : Nat), 1 ≤ n →
      ∃ adds, Do parse (File.regular content) n = some (Except.ok adds) ∧
        adds.length = n) := by
  refine ⟨?_, ?_, ?_, ?_, ?_⟩
  · intro rd
    cases rd with
    | nil => exact Or.inl ⟨rfl, rfl⟩
    | cons c rest => exact Or.inr (List.length_pos.2 (ReadBytes_ne_nil c rest))
  · intro parse pos stop rd
    exact scan_of_span parse _ pos stop rd (Nat.lt_succ_self _)
  · intro parse fuel fuel2 pos stop rd adds h hle
    exact scan_fuel_le parse fuel fuel2 pos stop rd adds h hle
  · intro parse content start stop
    obtain ⟨adds, hadds⟩ := scan_of_span parse (stop - start + 1) start stop
      (seekAndAlign content start) (Nat.lt_succ_self _)
    refine ⟨adds, ?_, hadds⟩
    have h1 := processBatch_eq parse content start stop
    have hmax1 := scan_fuel_le parse _
      (max (stop - start + 1) ((seekAndAlign content start).length + 1)) _ _ _ _ hadds
      (Nat.le_max_left _ _)
    have hmax2 := scan_fuel_le parse _
      (max (stop - start + 1) ((seekAndAlign content start).length + 1)) _ _ _ _ h1
      (Nat.le_max_right _ _)
    rw [hmax1] at hmax2
    rw [h1, ← Option.some.inj hmax2]
  · intro parse content n hn
    exact ⟨_, Do_regular parse content n hn, by simp [spans]⟩

/-- Instance of C20: on two lines and the span `[0, 8)` the loop ends with 9 units of
fuel and with 90. -/
theorem scan_terminates_witness :
    scan (ParseIP (fun _ => none)) 9 0 8 (bytes "1.1.1.1\n2.2.2.2\n") = some [16843009] ∧
    9 ≤ 90 ∧
    scan (ParseIP (fun _ => none)) 90 0 8 (bytes "1.1.1.1\n2.2.2.2\n") = some [16843009] :=
  ⟨rfl, by decide,
    scan_terminates.2.2.1 (ParseIP (fun _ => none)) 9 90 0 8 (bytes "1.1.1.1\n2.2.2.2\n")
      [16843009] rfl (by decide)⟩

theorem digit_spec (d : Nat) (hd : d < 10) :
    (48 ≤ digit d ∧ digit d ≤ 57) ∧ (digit d).toNat = 48 + d ∧ digit d ≠ 46 ∧
      digit d ≠ 58 ∧ digit d ≠ 37 ∧ digit d ≠ 10 := by
  interval_cases d <;> decide

theorem parse_digit (d : Nat) (hd : d < 10) (rest : List UInt8) (prev : Option UInt8)
    (val digLen : Nat) (fields : List Nat) (h0 : ¬ (digLen = 1 ∧ val = 0))
    (h255 : val * 10 + d ≤ 255) :
    parseIPv4Fields (digit d :: rest) prev val digLen fields
      = parseIPv4Fields rest (some (digit d)) (val * 10 + d) (digLen + 1) fields := by
  obtain ⟨hr, hn, _⟩ := digit_spec d hd
  have hv : val * 10 + (digit d).toNat - 48 = val * 10 + d := by rw [hn]; omega
  rw [parseIPv4Fields, if_pos hr, if_neg h0, hv, if_neg (by omega)]

theorem parse_octet (o : Nat) (ho : o < 256) (rest : List UInt8) (prev : Option UInt8)
    (fields : List Nat) :
    parseIPv4Fields (octetText o ++ rest) prev 0 0 fields
      = parseIPv4Fields rest (some (digit (o % 10))) o (octetText o).length fields := by
  unfold octetText
  by_cases h1 : o < 10
  · simp only [h1, if_true, List.singleton_append, List.length_singleton]
    rw [parse_digit o h1 rest prev 0 0 fields (by omega) (by omega)]
    congr 2
    · rw [Nat.mod_eq_of_lt h1]
    · omega
  · by_cases h2 : o < 100
    · simp only [h1, h2, if_true, if_false, List.cons_append, List.nil_append,
        List.length_cons, List.length_nil]
      rw [parse_digit (o / 10) (by omega) _ prev 0 0 fields (by omega) (by omega),
        parse_digit (o % 10) (by omega) _ _ _ _ fields (by omega) (by omega)]
      congr 1
      omega
    · simp only [h1, h2, if_false, List.cons_append, List.nil_append,
        List.length_cons, List.length_nil]
      rw [parse_digit (o / 100) (by omega) _ prev 0 0 fields (by omega) (by omega),
        parse_digit (o / 10 % 10) (by omega) _ _ _ _ fields (by omega) (by omega),
        parse_digit (o % 10) (by omega) _ _ _ _ fields (by omega) (by omega)]
      congr 1
      omega

theorem octetText_ne_nil (o : Nat) : octetText o ≠ [] := by
  unfold octetText
  split
  · simp
  · split <;> simp

theorem parse_dot (rest : List UInt8) (hrest : rest ≠ []) (d : Nat) (hd : d < 10)
    (val digLen : Nat) (fields : List Nat) (hf : fields.length < 3) :
    parseIPv4Fields (46 :: rest) (some (digit d)) val digLen fields
      = parseIPv4Fields rest (some 46) 0 0 (fields ++ [val]) := by
  obtain ⟨_, _, h46, _⟩ := digit_spec d hd
  have hnd : ¬ ((48 : UInt8) ≤ 46 ∧ (46 : UInt8) ≤ 57) := by decide
  have hne : ¬ (some (digit d) = none ∨ rest = [] ∨ some (digit d) = some 46) := by
    simp [hrest, h46]
  rw [parseIPv4Fields, if_neg hnd, if_pos rfl, if_neg hne, if_neg (by omega)]

theorem parse_dotted (a b c d : Nat) (ha : a < 256) (hb : b < 256) (hc : c < 256)
    (hd : d < 256) : parseIPv4Fields (dotted a b c d) none 0 0 [] = some [a, b, c, d] := by
  unfold dotted
  rw [parse_octet a ha, parse_dot _ (by simp [octetText_ne_nil]) (a % 10) (by omega) _ _ _
      (by simp),
    parse_octet b hb, parse_dot _ (by simp [octetText_ne_nil]) (b % 10) (by omega) _ _ _
      (by simp),
    parse_octet c hc, parse_dot _ (by simp [octetText_ne_nil]) (c % 10) (by omega) _ _ _
      (by simp)]
  have := parse_octet d hd [] (some 46) ([] ++ [a] ++ [b] ++ [c])
  rw [List.append_nil] at this
  rw [this]
  simp [parseIPv4Fields]

theorem parseAddr_octet (v6 : List UInt8 → Option Nat) (s : List UInt8) (o : Nat)
    (ho : o < 256) (rest : List UInt8) :
    parseAddr v6 s (octetText o ++ 46 :: rest)
      = (parseIPv4Fields s none 0 0 []).bind bigEndianUint32 := by
  have hstep : ∀ (d : Nat), d < 10 → ∀ tl, parseAddr v6 s (digit d :: tl) = parseAddr v6 s tl := by
    intro d hd tl
    obtain ⟨_, _, h46, h58, h37, _⟩ := digit_spec d hd
    rw [parseAddr, if_neg h46, if_neg h58, if_neg h37]
  have hdot : parseAddr v6 s (46 :: rest)
      = (parseIPv4Fields s none 0 0 []).bind bigEndianUint32 := by
    rw [parseAddr, if_pos rfl]
  unfold octetText
  by_cases h1 : o < 10
  · simp only [h1, if_true, List.singleton_append]
    rw [hstep o h1, hdot]
  · by_cases h2 : o < 100
    · simp only [h1, h2, if_true, if_false, List.cons_append, List.nil_append]
      rw [hstep _ (by omega), hstep _ (by omega), hdot]
    · simp only [h1, h2, if_false, List.cons_append, List.nil_append]
      rw [hstep _ (by omega), hstep _ (by omega), hstep _ (by omega), hdot]

theorem bigEndianUint32_eq (a b c d : Nat) (hb : b < 256) (hc : c < 256) (hd : d < 256) :
    bigEndianUint32 [a, b, c, d] = some (a * 2 ^ 24 + b * 2 ^ 16 + c * 2 ^ 8 + d) := by
  have h1 : 2 ^ 8 * c + d = 2 ^ 8 * c ||| d := Nat.mul_add_lt_is_or (by omega) c
  have h2 : 2 ^ 16 * b + (2 ^ 8 * c + d) = 2 ^ 16 * b ||| (2 ^ 8 * c + d) :=
    Nat.mul_add_lt_is_or (by omega) b
  have h3 : 2 ^ 24 * a + (2 ^ 16 * b + (2 ^ 8 * c + d))
      = 2 ^ 24 * a ||| (2 ^ 16 * b + (2 ^ 8 * c + d)) :=
    Nat.mul_add_lt_is_or (by omega) a
  simp only [bigEndianUint32, Nat.shiftLeft_eq, Option.some.injEq]
  rw [Nat.or_assoc, Nat.or_assoc, Nat.mul_comm a, Nat.mul_comm b, Nat.mul_comm c,
    ← h1, ← h2, ← h3]
  omega

theorem ParseIP_dotted (v6 : List UInt8 → Option Nat) (a b c d : Nat) (ha : a < 256)
    (hb : b < 256) (hc : c < 256) (hd : d < 256) :
    ParseIP v6 (dotted a b c d) = some (a * 2 ^ 24 + b * 2 ^ 16 + c * 2 ^ 8 + d) := by
  unfold ParseIP
  have hA := parseAddr_octet v6 (dotted a b c d) a ha
    (octetText b ++ 46 :: (octetText c ++ 46 :: octetText d))
  have hdef : dotted a b c d
      = octetText a ++ 46 :: (octetText b ++ 46 :: (octetText c ++ 46 :: octetText d)) := rfl
  rw [← hdef] at hA
  rw [hA, parse_dotted a b c d ha hb hc hd, Option.some_bind,
    bigEndianUint32_eq a b c d hb hc hd]

theorem octetText_no_newline (o : Nat) (ho : o < 256) : ∀ x ∈ octetText o, x ≠ 10 := by
  intro x hx
  unfold octetText at hx
  have hdig : ∀ k, k < 10 → digit k ≠ 10 := fun k hk => (digit_spec k hk).2.2.2.2.2
  split at hx
  · simp only [List.mem_singleton] at hx
    subst hx; exact hdig _ (by omega)
  · split at hx
    · simp only [List.mem_cons, List.mem_singleton, List.not_mem_nil, or_false] at hx
      rcases hx with rfl | rfl
      · exact hdig _ (by omega)
      · exact hdig _ (by omega)
    · simp only [List.mem_cons, List.mem_singleton, List.not_mem_nil, or_false] at hx
      rcases hx with rfl | rfl | rfl
      · exact hdig _ (by omega)
      · exact hdig _ (by omega)
      · exact hdig _ (by omega)

theorem dotted_no_newline (a b c d : Nat) (ha : a < 256) (hb : b < 256) (hc : c < 256)
    (hd : d < 256) : ∀ x ∈ dotted a b c d, x ≠ 10 := by
  intro x hx
  simp only [dotted, List.mem_append, List.mem_cons] at hx
  have h46 : (46 : UInt8) ≠ 10 := by decide
  rcases hx with h | rfl | h | rfl | h | rfl | h
  · exact octetText_no_newline a ha x h
  · exact h46
  · exact octetText_no_newline b hb x h
  · exact h46
  · exact octetText_no_newline c hc x h
  · exact h46
  · exact octetText_no_newline d hd x h

theorem dotted_ne_nil (a b c d : Nat) : dotted a b c d ≠ [] := by
  simp [dotted, octetText_ne_nil]

theorem TrimSuffix_of_no_newline (l : List UInt8) (h : ∀ x ∈ l, x ≠ 10) :
    TrimSuffix l = l := by
  unfold TrimSuffix
  split
  · rename_i hl
    exact absurd rfl (h 10 (List.mem_of_getLast?_eq_some hl))
  · rfl

theorem TrimSuffix_append_newline (l : List UInt8) : TrimSuffix (l ++ [10]) = l := by
  simp [TrimSuffix]

theorem chunks_line (l rest : List UInt8) (h : ∀ x ∈ l, x ≠ 10) :
    chunks (l ++ 10 :: rest) = (l ++ [10]) :: chunks rest := by
  induction l with
  | nil => simp [chunks]
  | cons c l ih =>
    have hc : c ≠ 10 := h c (List.mem_cons_self c l)
    rw [List.cons_append, chunks, if_neg hc, ih (fun x hx => h x (List.mem_cons_of_mem c hx))]
    rfl

/-- C14. For octets `a b c d` in 0..255, a line whose text (one trailing newline
removed, or none present) is the dotted-decimal address `a.b.c.d` parses to
`a * 2 ^ 24 + b * 2 ^ 16 + c * 2 ^ 8 + d`, octet 0 most significant, and that is the
value passed to `Add` for the line; the value determines the four octets, so two
different addresses never give the same value. -/
theorem dotted_value_big_endian (a b c d : Nat) (ha : a < 256) (hb : b < 256)
    (hc : c < 256) (hd : d < 256) :
    (∀ v6, ParseIP v6 (TrimSuffix (dotted a b c d ++ [10]))
        = some (a * 2 ^ 24 + b * 2 ^ 16 + c * 2 ^ 8 + d) ∧
      ParseIP v6 (TrimSuffix (dotted a b c d))
        = some (a * 2 ^ 24 + b * 2 ^ 16 + c * 2 ^ 8 + d) ∧
      Do (ParseIP v6) (File.regular (dotted a b c d ++ [10])) 1
        = some (Except.ok [[a * 2 ^ 24 + b * 2 ^ 16 + c * 2 ^ 8 + d]])) ∧
    a * 2 ^ 24 + b * 2 ^ 16 + c * 2 ^ 8 + d < 2 ^ 32 ∧
    (∀ a1 b1 c1 d1 : Nat, a1 < 256 → b1 < 256 → c1 < 256 → d1 < 256 →
      a * 2 ^ 24 + b * 2 ^ 16 + c * 2 ^ 8 + d = a1 * 2 ^ 24 + b1 * 2 ^ 16 + c1 * 2 ^ 8 + d1 →
      a = a1 ∧ b = b1 ∧ c = c1 ∧ d = d1) := by
  refine ⟨?_, by omega, ?_⟩
  · intro v6
    have hP := ParseIP_dotted v6 a b c d ha hb hc hd
    have hnl := dotted_no_newline a b c d ha hb hc hd
    refine ⟨by rw [TrimSuffix_append_newline, hP],
      by rw [TrimSuffix_of_no_newline _ hnl, hP], ?_⟩
    rw [Do_regular _ _ 1 (Nat.le_refl 1), spans_one]
    have hlen : 0 < (dotted a b c d ++ [10]).length - 0 := by simp
    have hch : chunks (dotted a b c d ++ [10]) = [dotted a b c d ++ [10]] := by
      have := chunks_line (dotted a b c d) [] hnl
      simpa [chunks] using this
    simp only [List.map_cons, List.map_nil, seekAndAlign, ne_eq, not_true_eq_false,
      if_false, List.drop_zero, hch, takeBudget, hlen, if_true,
      TrimSuffix_append_newline, List.filterMap_cons, hP, List.filterMap_nil]
  · intro a1 b1 c1 d1 ha1 hb1 hc1 hd1 h
    omega

/-- Instance of C14 at the addresses 192.168.0.1 and 255.255.255.255. -/
theorem dotted_value_big_endian_witness :
    dotted 192 168 0 1 = bytes "192.168.0.1" ∧
    dotted 255 255 255 255 = bytes "255.255.255.255" ∧
    (192 < 256 ∧ 168 < 256 ∧ 0 < 256 ∧ 1 < 256) ∧
    ParseIP (fun _ => none) (TrimSuffix (dotted 192 168 0 1 ++ [10]))
      = some (192 * 2 ^ 24 + 168 * 2 ^ 16 + 0 * 2 ^ 8 + 1) :=
  ⟨by decide, by decide, by decide,
    ((dotted_value_big_endian 192 168 0 1 (by decide) (by decide) (by decide)
      (by decide)).1 (fun _ => none)).1⟩

theorem chunks_ne_nil (rd : List UInt8) : ∀ x ∈ chunks rd, x ≠ [] := by
  induction rd with
  | nil => intro x hx; simp [chunks] at hx
  | cons c rest ih =>
    intro x hx
    by_cases hc : c = 10
    · rw [chunks, if_pos hc] at hx
      rcases List.mem_cons.1 hx with rfl | h
      · simp
      · exact ih x h
    · rw [chunks, if_neg hc] at hx
      cases hch : chunks rest with
      | nil =>
        rw [hch] at hx
        simp only [List.mem_singleton] at hx
        subst hx; simp
      | cons l ls =>
        rw [hch] at hx
        rcases List.mem_cons.1 hx with rfl | h
        · simp
        · exact ih x (by rw [hch]; exact List.mem_cons_of_mem l h)

theorem chunks_flatten (rd : List UInt8) : (chunks rd).flatten = rd := by
  induction rd with
  | nil => rfl
  | cons c rest ih =>
    by_cases hc : c = 10
    · rw [chunks, if_pos hc, List.flatten_cons, ih]; rfl
    · rw [chunks, if_neg hc]
      cases hch : chunks rest with
      | nil =>
        rw [hch] at ih
        simp only [List.flatten_nil] at ih
        simp [← ih]
      | cons l ls =>
        rw [hch] at ih
        simp only [List.flatten_cons] at ih ⊢
        rw [List.cons_append, ih]

theorem lines_eq_chunks (rd : List UInt8) : lines rd = (chunks rd).map TrimSuffix := by
  induction rd with
  | nil => rfl
  | cons c rest ih =>
    by_cases hc : c = 10
    · subst hc
      simp [lines, chunks, ih, TrimSuffix]
    · rw [lines, chunks, if_neg hc, if_neg hc, ih]
      cases hch : chunks rest with
      | nil => simp [TrimSuffix, hc]
      | cons l ls =>
        have hl : l ≠ [] := chunks_ne_nil rest l (by rw [hch]; exact List.mem_cons_self l ls)
        simp [TrimSuffix_cons c l hl]

theorem takeBudget_initial (budget : Nat) (cs : List (List UInt8)) :
    (takeBudget budget cs).IsPrefix cs := by
  induction cs generalizing budget with
  | nil => exact List.prefix_refl _
  | cons c cs ih =>
    unfold takeBudget
    split
    · exact (List.prefix_cons_inj c).2 (ih _)
    · exact List.nil_prefix

theorem ReadBytes_drop (rd : List UInt8) :
    ∀ s, s < (ReadBytes rd).1.length →
      (ReadBytes (rd.drop s)).2.1 = (ReadBytes rd).2.1 := by
  induction rd with
  | nil => intro s hs; simp [ReadBytes] at hs
  | cons c rest ih =>
    intro s hs
    cases s with
    | zero => rfl
    | succ s =>
      by_cases hc : c = 10
      · subst hc
        simp [ReadBytes] at hs
      · rw [ReadBytes_cons_ne c rest hc] at hs ⊢
        simp only [List.length_cons, List.drop_succ_cons] at hs ⊢
        exact ih s (by omega)

/-- The pieces read after the first `ReadBytes` from offset `s` are the pieces of the
file that follow the piece holding byte `s`. -/
theorem chunks_split_at : ∀ (k : Nat) (content : List UInt8) (s : Nat),
    content.length ≤ k → s < content.length →
    ∃ A y, chunks content = A ++ y :: chunks (ReadBytes (content.drop s)).2.1 ∧
      A.flatten.length ≤ s ∧ s < A.flatten.length + y.length := by
  intro k
  induction k with
  | zero => intro content s hk hs; omega
  | succ k ih =>
    intro content s hk hs
    cases content with
    | nil => simp at hs
    | cons c rest =>
      have hlen := ReadBytes_length (c :: rest)
      have happ := ReadBytes_append (c :: rest)
      have hpos : 0 < (ReadBytes (c :: rest)).1.length :=
        List.length_pos.2 (ReadBytes_ne_nil c rest)
      by_cases hcase : s < (ReadBytes (c :: rest)).1.length
      · refine ⟨[], (ReadBytes (c :: rest)).1, ?_, by simp, by simpa using hcase⟩
        rw [ReadBytes_drop (c :: rest) s hcase, List.nil_append]
        exact chunks_ReadBytes c rest
      · have hdrop : (c :: rest).drop s
            = (ReadBytes (c :: rest)).2.1.drop (s - (ReadBytes (c :: rest)).1.length) := by
          conv_lhs => rw [← happ]
          rw [List.drop_append_eq_append_drop]
          have : List.drop s (ReadBytes (c :: rest)).1 = [] :=
            List.drop_eq_nil_of_le (by omega)
          rw [this, List.nil_append]
        simp only [List.length_cons] at hk hs hlen
        obtain ⟨A, y, hch, hA1, hA2⟩ := ih (ReadBytes (c :: rest)).2.1
          (s - (ReadBytes (c :: rest)).1.length) (by omega) (by omega)
        refine ⟨(ReadBytes (c :: rest)).1 :: A, y, ?_, ?_, ?_⟩
        · rw [hdrop, chunks_ReadBytes, hch, List.cons_append]
        · simp only [List.flatten_cons, List.length_append]; omega
        · simp only [List.flatten_cons, List.length_append]; omega

theorem seekAndAlign_chunks_suffix (content : List UInt8) (start : Nat) :
    (chunks (seekAndAlign content start)).IsSuffix (chunks content) := by
  unfold seekAndAlign
  by_cases h0 : start = 0
  · subst h0
    simp [List.suffix_refl]
  · simp only [ne_eq, h0, not_false_eq_true, if_true]
    rcases Nat.lt_or_ge start content.length with hlt | hge
    · obtain ⟨A, y, hch, _, _⟩ := chunks_split_at content.length content start
        (Nat.le_refl _) hlt
      rw [hch]
      exact ⟨A ++ [y], by simp⟩
    · rw [List.drop_eq_nil_of_le hge]
      exact ⟨chunks content, by simp [ReadBytes, chunks]⟩

/-- The texts a worker parses are lines of the file, in file order. -/
theorem worker_texts_sublist (content : List UInt8) (start stop : Nat) :
    ((takeBudget (stop - start) (chunks (seekAndAlign content start))).map
      TrimSuffix).Sublist (lines content) := by
  rw [lines_eq_chunks]
  exact ((takeBudget_initial _ _).sublist.trans
    (seekAndAlign_chunks_suffix content start).sublist).map TrimSuffix

theorem parseIPv4Fields_le (s : List UInt8) :
    ∀ (prev : Option UInt8) (val digLen : Nat) (fields fs : List Nat),
      parseIPv4Fields s prev val digLen fields = some fs → val ≤ 255 →
      (∀ f ∈ fields, f ≤ 255) → ∀ f ∈ fs, f ≤ 255 := by
  induction s with
  | nil =>
    intro prev val digLen fields fs h hval hfields f hf
    rw [parseIPv4Fields] at h
    split at h
    · simp at h
    · simp only [Option.some.injEq] at h
      subst h
      rcases List.mem_append.1 hf with h1 | h1
      · exact hfields f h1
      · simp only [List.mem_singleton] at h1
        subst h1; exact hval
  | cons c rest ih =>
    intro prev val digLen fields fs h hval hfields f hf
    rw [parseIPv4Fields] at h
    split at h
    · split at h
      · simp at h
      · split at h
        · simp at h
        · exact ih _ _ _ _ _ h (by omega) hfields f hf
    · split at h
      · split at h
        · simp at h
        · split at h
          · simp at h
          · refine ih _ _ _ _ _ h (by omega) ?_ f hf
            intro g hg
            rcases List.mem_append.1 hg with h1 | h1
            · exact hfields g h1
            · simp only [List.mem_singleton] at h1
              subst h1; exact hval
      · simp at h

theorem bigEndianUint32_lt (fs : List Nat) (v : Nat) (h : bigEndianUint32 fs = some v)
    (hfs : ∀ f ∈ fs, f ≤ 255) : v < 2 ^ 32 := by
  match fs, h with
  | [a, b, c, d], h =>
    have ha := hfs a (by simp)
    have hb := hfs b (by simp)
    have hc := hfs c (by simp)
    have hd := hfs d (by simp)
    rw [bigEndianUint32_eq a b c d (by omega) (by omega) (by omega)] at h
    simp only [Option.some.injEq] at h
    omega

theorem parseAddr_lt (v6 : List UInt8 → Option Nat)
    (hv6 : ∀ s a, v6 s = some a → a < 2 ^ 32) (s : List UInt8) :
    ∀ (l : List UInt8) (a : Nat), parseAddr v6 s l = some a → a < 2 ^ 32 := by
  intro l
  induction l with
  | nil => intro a h; simp [parseAddr] at h
  | cons c rest ih =>
    intro a h
    rw [parseAddr] at h
    split at h
    · cases hp : parseIPv4Fields s none 0 0 [] with
      | none => rw [hp] at h; simp at h
      | some fs =>
        rw [hp, Option.some_bind] at h
        exact bigEndianUint32_lt fs a h
          (parseIPv4Fields_le s none 0 0 [] fs hp (by omega) (by simp))
    · split at h
      · exact hv6 s a h
      · split at h
        · simp at h
        · exact ih a h

theorem ParseIP_lt (v6 : List UInt8 → Option Nat)
    (hv6 : ∀ s a, v6 s = some a → a < 2 ^ 32) (s : List UInt8) (a : Nat)
    (h : ParseIP v6 s = some a) : a < 2 ^ 32 :=
  parseAddr_lt v6 hv6 s s a h

theorem Do_one (parse : List UInt8 → Option Nat) (content : List UInt8) :
    Do parse (File.regular content) 1
      = some (Except.ok [(lines content).filterMap parse]) := by
  have hscan := scan_to_end parse (content.length + 1) content 0 content.length
    (by omega) (by omega)
  simp only [Do, spans_one, Nat.one_ne_zero, if_false]
  rw [List.mapM_cons, List.mapM_nil]
  simp [processBatch, seekAndAlign, hscan]

theorem mem_workers_flatten (parse : List UInt8 → Option Nat)
    (texts : Nat × Nat → List (List UInt8)) (sp : List (Nat × Nat)) (a : Nat) :
    a ∈ (sp.map (fun s => (texts s).filterMap parse)).flatten
      ↔ ∃ s ∈ sp, ∃ t ∈ texts s, parse t = some a := by
  simp only [List.mem_flatten, List.mem_map, List.mem_filterMap]
  constructor
  · rintro ⟨l, ⟨s, hs, rfl⟩, ha⟩
    obtain ⟨t, ht, hp⟩ := List.mem_filterMap.1 ha
    exact ⟨s, hs, t, ht, hp⟩
  · rintro ⟨s, hs, t, ht, hp⟩
    exact ⟨_, ⟨s, hs, rfl⟩, List.mem_filterMap.2 ⟨t, ht, hp⟩⟩

theorem dedup_length_le_of_subset (l1 l2 : List Nat) (h : l1 ⊆ l2) :
    l1.dedup.length ≤ l2.dedup.length := by
  rw [← List.card_toFinset, ← List.card_toFinset]
  apply Finset.card_le_card
  intro x hx
  exact List.mem_toFinset.2 (h (List.mem_toFinset.1 hx))

theorem runCount_eq (parse : List UInt8 → Option Nat)
    (hparse : ∀ s a, parse s = some a → a < 2 ^ 32) (content : List UInt8) (n : Nat)
    (adds : List (List Nat)) (hDo : Do parse (File.regular content) n = some (Except.ok adds))
    (hsub : ∀ a ∈ adds.flatten, a ∈ (lines content).filterMap parse) :
    runCount parse content n = some adds.flatten.dedup.length := by
  rw [runCount, hDo]
  simp only
  apply uniqueCount_eq
  intro a ha
  obtain ⟨t, _, hp⟩ := List.mem_filterMap.1 (hsub a ha)
  exact hparse t a hp

theorem mem_takeBudget (B1 : List (List UInt8)) (x : List UInt8) (B2 : List (List UInt8)) :
    ∀ budget, B1.flatten.length < budget → x ∈ takeBudget budget (B1 ++ x :: B2) := by
  induction B1 with
  | nil =>
    intro budget h
    have : 0 < budget := by omega
    simp [takeBudget, this]
  | cons c B1 ih =>
    intro budget h
    simp only [List.flatten_cons, List.length_append] at h
    have hpos : 0 < budget := by omega
    rw [List.cons_append, takeBudget, if_pos hpos]
    exact List.mem_cons_of_mem c (ih _ (by omega))

theorem split_after (A : List (List UInt8)) (y : List UInt8) (R : List (List UInt8)) :
    ∀ (P : List (List UInt8)) (x : List UInt8) (Q : List (List UInt8)),
      A ++ y :: R = P ++ x :: Q → A.flatten.length < P.flatten.length →
      ∃ B1, P = A ++ y :: B1 ∧ R = B1 ++ x :: Q := by
  induction A with
  | nil =>
    intro P x Q h hlt
    cases P with
    | nil => simp at hlt
    | cons p P =>
      simp only [List.nil_append, List.cons_append, List.cons.injEq] at h
      exact ⟨P, by rw [h.1]; rfl, h.2⟩
  | cons a A ih =>
    intro P x Q h hlt
    cases P with
    | nil => simp at hlt
    | cons p P =>
      simp only [List.cons_append, List.cons.injEq] at h
      obtain ⟨rfl, h2⟩ := h
      simp only [List.flatten_cons, List.length_append] at hlt
      obtain ⟨B1, hP, hR⟩ := ih P x Q h2 (by omega)
      exact ⟨B1, by rw [hP]; rfl, hR⟩

theorem mem_offsetsFrom (P : List (List UInt8)) (x : List UInt8) (Q : List (List UInt8)) :
    ∀ off, off + P.flatten.length ∈ offsetsFrom off (P ++ x :: Q) := by
  induction P with
  | nil => intro off; simp [offsetsFrom]
  | cons p P ih =>
    intro off
    have := ih (off + p.length)
    simp only [List.flatten_cons, List.length_append, List.cons_append, offsetsFrom,
      List.mem_cons]
    right
    rwa [Nat.add_assoc] at this

theorem mem_spans (size n i : Nat) (hi : i < n) :
    (size / n * i, if i = n - 1 then size else size / n * i + size / n) ∈ spans size n := by
  unfold spans
  exact List.mem_map.2 ⟨i, List.mem_range.2 hi, rfl⟩

theorem chunk_offset_lt (content : List UInt8) (P : List (List UInt8)) (x : List UInt8)
    (Q : List (List UInt8)) (hch : chunks content = P ++ x :: Q) :
    P.flatten.length + x.length ≤ content.length ∧ 0 < x.length := by
  have hfl := chunks_flatten content
  have hx : x ≠ [] := chunks_ne_nil content x (by rw [hch]; simp)
  rw [hch] at hfl
  have hl := congrArg List.length hfl
  simp only [List.flatten_append, List.flatten_cons, List.length_append] at hl
  exact ⟨by omega, List.length_pos.2 hx⟩

/-- A worker whose span starts at `s > 0` before the line at offset `o`, and ends at
the end of the file or not before `o`, parses that line. -/
theorem line_in_later_worker (content : List UInt8) (P : List (List UInt8))
    (x : List UInt8) (Q : List (List UInt8)) (hch : chunks content = P ++ x :: Q)
    (s e : Nat) (hs0 : s ≠ 0) (hso : s < P.flatten.length)
    (he : e = content.length ∨ P.flatten.length ≤ e) :
    x ∈ takeBudget (e - s) (chunks (seekAndAlign content s)) := by
  obtain ⟨hlen, hxpos⟩ := chunk_offset_lt content P x Q hch
  have hslt : s < content.length := by omega
  obtain ⟨A, y, hsplit, hA1, hA2⟩ := chunks_split_at content.length content s
    (Nat.le_refl _) hslt
  rw [hch] at hsplit
  obtain ⟨B1, hP, hR⟩ := split_after A y _ P x Q hsplit.symm (by omega)
  have hPl := congrArg (fun l => l.flatten.length) hP
  simp only [List.flatten_append, List.flatten_cons, List.length_append] at hPl
  have hseek : seekAndAlign content s = (ReadBytes (content.drop s)).2.1 := by
    simp [seekAndAlign, hs0]
  rw [hseek, hR]
  apply mem_takeBudget
  rcases he with he | he <;> omega

/-- Every line of the file is parsed by some worker, unless it starts exactly at the
end `size / n > 0` of the first span of several. -/
theorem line_covered (content : List UInt8) (n : Nat) (hn : 1 ≤ n)
    (P : List (List UInt8)) (x : List UInt8) (Q : List (List UInt8))
    (hch : chunks content = P ++ x :: Q)
    (hcond : n = 1 ∨ content.length / n = 0 ∨ P.flatten.length ≠ content.length / n) :
    ∃ s ∈ spans content.length n,
      x ∈ takeBudget (s.2 - s.1) (chunks (seekAndAlign content s.1)) := by
  obtain ⟨hlen, hxpos⟩ := chunk_offset_lt content P x Q hch
  have hfirst : ∀ e, P.flatten.length < e →
      x ∈ takeBudget (e - 0) (chunks (seekAndAlign content 0)) := by
    intro e he
    have : seekAndAlign content 0 = content := by simp [seekAndAlign]
    rw [this, hch]
    exact mem_takeBudget P x Q _ (by omega)
  obtain ⟨b, hb⟩ : ∃ b, content.length / n = b := ⟨_, rfl⟩
  rw [hb] at hcond
  by_cases hzero : n = 1 ∨ b = 0
  · have hmem := mem_spans content.length n (n - 1) (by omega)
    have hstart : b * (n - 1) = 0 := by
      rcases hzero with h | h
      · subst h; simp
      · rw [h, Nat.zero_mul]
    rw [if_pos rfl, hb, hstart] at hmem
    exact ⟨_, hmem, hfirst _ (by omega)⟩
  · have hn2 : 2 ≤ n := by omega
    have hbpos : 0 < b := by omega
    have hne : P.flatten.length ≠ b := by tauto
    rcases Nat.lt_or_ge P.flatten.length b with hlt | hge
    · have hmem := mem_spans content.length n 0 (by omega)
      rw [if_neg (by omega), hb, Nat.mul_zero, Nat.zero_add] at hmem
      exact ⟨_, hmem, hfirst _ hlt⟩
    · have hgt : b < P.flatten.length := by omega
      have hdm := Nat.div_add_mod (P.flatten.length - 1) b
      have hmod := Nat.mod_lt (P.flatten.length - 1) hbpos
      generalize (P.flatten.length - 1) / b = k1 at hdm
      generalize (P.flatten.length - 1) % b = r at hdm hmod
      have hk1 : 1 ≤ k1 := by
        rcases Nat.eq_zero_or_pos k1 with h0 | h0
        · subst h0
          simp only [Nat.mul_zero, Nat.zero_add] at hdm
          omega
        · exact h0
      have hk : ∃ k, 1 ≤ k ∧ k < n ∧ b * k < P.flatten.length ∧
          (k = n - 1 ∨ P.flatten.length ≤ b * k + b) := by
        by_cases hle : k1 ≤ n - 1
        · exact ⟨k1, hk1, by omega, by omega, Or.inr (by omega)⟩
        · have hmul : b * (n - 1) ≤ b * k1 := Nat.mul_le_mul_left b (by omega)
          exact ⟨n - 1, by omega, by omega, by omega, Or.inl rfl⟩
      obtain ⟨k, hk1, hkn, hks, hke⟩ := hk
      have hmem := mem_spans content.length n k hkn
      rw [hb] at hmem
      refine ⟨_, hmem, ?_⟩
      have hs0 : b * k ≠ 0 := Nat.mul_ne_zero (by omega) (by omega)
      apply line_in_later_worker content P x Q hch (b * k) _ hs0 hks
      rcases hke with hke | hke
      · left; rw [if_pos hke]
      · by_cases hlast : k = n - 1
        · left; rw [if_pos hlast]
        · right; rw [if_neg hlast]; exact hke

/-- Without faults, `Do` with `n` workers adds exactly the values of the lines that
parse, when no line starts at the end of the first of several spans. -/
theorem cover_without_faults (parse : List UInt8 → Option Nat) (content : List UInt8)
    (n : Nat) (hn : 1 ≤ n) (hparse : ∀ s a, parse s = some a → a < 2 ^ 32)
    (hcond : n = 1 ∨ content.length / n = 0 ∨
      content.length / n ∉ lineOffsets content) :
    ∃ adds, Do parse (File.regular content) n = some (Except.ok adds) ∧
      (∀ a, a ∈ adds.flatten ↔ a ∈ (lines content).filterMap parse) ∧
      runCount parse content n = runCount parse content 1 ∧
      runCount parse content 1 = some ((lines content).filterMap parse).dedup.length := by
  have hsub : ∀ a, a ∈ ((spans content.length n).map (fun s =>
      ((takeBudget (s.2 - s.1) (chunks (seekAndAlign content s.1))).map
        TrimSuffix).filterMap parse)).flatten ↔ a ∈ (lines content).filterMap parse := by
    intro a
    rw [mem_workers_flatten parse
      (fun s => (takeBudget (s.2 - s.1) (chunks (seekAndAlign content s.1))).map TrimSuffix)]
    constructor
    · rintro ⟨s, _, t, ht, hp⟩
      exact List.mem_filterMap.2 ⟨t, (worker_texts_sublist content s.1 s.2).subset ht, hp⟩
    · intro ha
      obtain ⟨t, ht, hp⟩ := List.mem_filterMap.1 ha
      rw [lines_eq_chunks] at ht
      obtain ⟨x, hx, rfl⟩ := List.mem_map.1 ht
      obtain ⟨P, Q, hch⟩ := List.append_of_mem hx
      have hc : n = 1 ∨ content.length / n = 0 ∨ P.flatten.length ≠ content.length / n := by
        rcases hcond with h | h | h
        · exact Or.inl h
        · exact Or.inr (Or.inl h)
        · refine Or.inr (Or.inr (fun heq => h ?_))
          have := mem_offsetsFrom P x Q 0
          rw [Nat.zero_add, ← hch, heq] at this
          exact this
      obtain ⟨s, hs, hmem⟩ := line_covered content n hn P x Q hch hc
      exact ⟨s, hs, TrimSuffix x, List.mem_map.2 ⟨x, hmem, rfl⟩, hp⟩
  have hr1 := runCount_eq parse hparse content 1 _ (Do_one parse content) (by simp)
  have hrn := runCount_eq parse hparse content n _ (Do_regular parse content n hn)
    (fun a ha => (hsub a).1 ha)
  refine ⟨_, Do_regular parse content n hn, hsub, ?_, by simpa using hr1⟩
  rw [hr1, hrn]
  congr 1
  apply Nat.le_antisymm
  · apply dedup_length_le_of_subset
    intro a ha
    simpa using (hsub a).1 ha
  · apply dedup_length_le_of_subset
    intro a ha
    exact (hsub a).2 (by simpa using ha)

theorem streamFrom_nil (bs : List UInt8) : ∀ off, streamFrom [] off bs = bs.map some := by
  induction bs with
  | nil => intro off; simp [streamFrom]
  | cons b bs ih => intro off; simp [streamFrom, ih]

theorem ReadBytesFaulty_map (bs : List UInt8) :
    ReadBytesFaulty (bs.map some)
      = ((ReadBytes bs).1, (ReadBytes bs).2.1.map some,
          if (ReadBytes bs).2.2 = true then ReadStatus.eof else ReadStatus.ok) := by
  induction bs with
  | nil => rfl
  | cons c rest ih =>
    by_cases hc : c = 10
    · subst hc; rfl
    · rw [ReadBytes_cons_ne c rest hc, List.map_cons, ReadBytesFaulty, if_neg hc, ih]

theorem scanFaulty_map (parse : List UInt8 → Option Nat) :
    ∀ (fuel pos stop : Nat) (rd : List UInt8),
      scanFaulty parse fuel pos stop (rd.map some) = scan parse fuel pos stop rd := by
  intro fuel
  induction fuel with
  | zero => intro pos stop rd; rfl
  | succ fuel ih =>
    intro pos stop rd
    unfold scanFaulty scan
    by_cases hlt : pos < stop
    · simp only [hlt, if_true, ReadBytesFaulty_map]
      by_cases heof : (ReadBytes rd).2.2 = true
      · simp only [heof, if_true, true_and]
        rw [if_neg (by decide)]
        by_cases hlen : (ReadBytes rd).1.length = 0
        · simp [hlen]
        · simp only [hlen, if_false, and_false, and_true, if_true, ih]
      · simp only [heof, if_false, false_and]
        rw [if_neg (by decide), if_neg (by simp)]
        simp only [ih]
        cases parse (TrimSuffix (ReadBytes rd).1) with
        | none => rfl
        | some ip => simp
    · simp [hlt]

theorem processBatchFaulty_no_faults (parse : List UInt8 → Option Nat) (content : List UInt8)
    (start stop : Nat) :
    processBatchFaulty parse content start stop ⟨false, []⟩
      = processBatch parse content start stop := by
  unfold processBatchFaulty processBatch seekAndAlign
  simp only [Bool.false_eq_true, if_false, streamFrom_nil]
  by_cases h0 : start = 0
  · simp only [h0, ne_eq, not_true_eq_false, if_false, List.length_map, scanFaulty_map]
  · simp only [ne_eq, h0, not_false_eq_true, if_true, ReadBytesFaulty_map, List.length_map,
      scanFaulty_map]

theorem DoFaulty_no_faults (parse : List UInt8 → Option Nat) (content : List UInt8) (n : Nat)
    (hn : 1 ≤ n) (ios : Nat → WorkerFaults) (hio : ∀ i, i < n → ios i = ⟨false, []⟩) :
    DoFaulty parse (File.regular content) n ios = Do parse (File.regular content) n := by
  have hn0 : ¬ n = 0 := by omega
  rw [Do_regular parse content n hn]
  simp only [DoFaulty, hn0, if_false]
  rw [mapM_eq_some_map _ (fun i =>
    ((takeBudget ((if i = n - 1 then content.length
        else content.length / n * i + content.length / n) - content.length / n * i)
      (chunks (seekAndAlign content (content.length / n * i)))).map
        TrimSuffix).filterMap parse) _ (fun i hi => by
      rw [hio i (List.mem_range.1 hi), processBatchFaulty_no_faults, processBatch_eq])]
  simp [spans, List.map_map, Function.comp_def]

/-- C17. When `n = 1`, or `size / n = 0`, or no line of the file has its first byte
at offset `size / n`, and every worker opens the file and meets no read error other
than `io.EOF`, `Do` with `n` workers passes to `Add` exactly the values of the lines
of the file that parse (as a set; a value may be passed several times), so the
unique count equals the unique count with one worker. -/
theorem adds_cover_all_lines (parse : List UInt8 → Option Nat) (content : List UInt8)
    (n : Nat) (hn : 1 ≤ n) (hparse : ∀ s a, parse s = some a → a < 2 ^ 32)
    (hcond : n = 1 ∨ content.length / n = 0 ∨
      content.length / n ∉ lineOffsets content)
    (ios : Nat → WorkerFaults) (hio : ∀ i, i < n → ios i = ⟨false, []⟩) :
    ∃ adds, DoFaulty parse (File.regular content) n ios = some (Except.ok adds) ∧
      (∀ a, a ∈ adds.flatten ↔ a ∈ (lines content).filterMap parse) ∧
      runCountFaulty parse content n ios
        = runCountFaulty parse content 1 (fun _ => ⟨false, []⟩) ∧
      runCountFaulty parse content 1 (fun _ => ⟨false, []⟩)
        = some ((lines content).filterMap parse).dedup.length := by
  obtain ⟨adds, hDo, hset, hcount, hone⟩ := cover_without_faults parse content n hn hparse hcond
  have hn_eq := DoFaulty_no_faults parse content n hn ios hio
  have h1_eq := DoFaulty_no_faults parse content 1 (Nat.le_refl 1) (fun _ => ⟨false, []⟩)
    (fun _ _ => rfl)
  have hrn : runCountFaulty parse content n ios = runCount parse content n := by
    rw [runCountFaulty, runCount, hn_eq]
  have hr1 : runCountFaulty parse content 1 (fun _ => ⟨false, []⟩) = runCount parse content 1 := by
    rw [runCountFaulty, runCount, h1_eq]
  exact ⟨adds, by rw [hn_eq, hDo], hset, by rw [hrn, hr1, hcount], by rw [hr1, hone]⟩

/-- Instance of C17: the lines 1.1.1.1 and 2.2.2.2 with 8 workers without faults
(`size / n = 2`, the lines start at 0 and 8); the value of the second line is passed
three times. -/
theorem adds_cover_all_lines_witness :
    lineOffsets (bytes "1.1.1.1\n2.2.2.2\n") = [0, 8] ∧
    DoFaulty (ParseIP (fun _ => none)) (File.regular (bytes "1.1.1.1\n2.2.2.2\n")) 8
        (fun _ => ⟨false, []⟩)
      = some (Except.ok [[16843009], [33686018], [33686018], [33686018], [], [], [], []]) ∧
    1 ≤ 8 ∧ (∀ s a, ParseIP (fun _ => none) s = some a → a < 2 ^ 32) ∧
    (8 = 1 ∨ (bytes "1.1.1.1\n2.2.2.2\n").length / 8 = 0 ∨
      (bytes "1.1.1.1\n2.2.2.2\n").length / 8 ∉ lineOffsets (bytes "1.1.1.1\n2.2.2.2\n")) ∧
    (∀ i, i < 8 → (fun _ => (⟨false, []⟩ : WorkerFaults)) i = ⟨false, []⟩) ∧
    ∃ adds, DoFaulty (ParseIP (fun _ => none)) (File.regular (bytes "1.1.1.1\n2.2.2.2\n")) 8
          (fun _ => ⟨false, []⟩)
        = some (Except.ok adds) ∧
      (∀ a, a ∈ adds.flatten ↔
        a ∈ (lines (bytes "1.1.1.1\n2.2.2.2\n")).filterMap (ParseIP (fun _ => none))) ∧
      runCountFaulty (ParseIP (fun _ => none)) (bytes "1.1.1.1\n2.2.2.2\n") 8
          (fun _ => ⟨false, []⟩)
        = runCountFaulty (ParseIP (fun _ => none)) (bytes "1.1.1.1\n2.2.2.2\n") 1
          (fun _ => ⟨false, []⟩) ∧
      runCountFaulty (ParseIP (fun _ => none)) (bytes "1.1.1.1\n2.2.2.2\n") 1
          (fun _ => ⟨false, []⟩)
        = some ((lines (bytes "1.1.1.1\n2.2.2.2\n")).filterMap
            (ParseIP (fun _ => none))).dedup.length :=
  ⟨by decide, rfl, by decide, ParseIP_lt _ (fun _ _ h => by simp at h),
    Or.inr (Or.inr (by decide)), fun _ _ => rfl,
    adds_cover_all_lines (ParseIP (fun _ => none)) (bytes "1.1.1.1\n2.2.2.2\n") 8 (by decide)
      (ParseIP_lt _ (fun _ _ h => by simp at h)) (Or.inr (Or.inr (by decide)))
      (fun _ => ⟨false, []⟩) (fun _ _ => rfl)⟩

/-- C17 as first stated fails when a worker meets an I/O fault. On the lines 1.1.1.1
and 2.2.2.2 with 8 workers (`size / n = 2`, no line starts at offset 2) the workers
1, 2 and 3 are the ones that parse the second line; when their `os.Open` fails, `Do`
still returns without error and 2.2.2.2 is passed to `Add` by no worker. With one
worker and a read error at offset 8 the worker stops after the first line: the
count is 1, against 2 without the fault. -/
theorem adds_miss_lines_on_io_fault :
    (8 = 1 ∨ (bytes "1.1.1.1\n2.2.2.2\n").length / 8 = 0 ∨
      (bytes "1.1.1.1\n2.2.2.2\n").length / 8 ∉ lineOffsets (bytes "1.1.1.1\n2.2.2.2\n")) ∧
    DoFaulty (ParseIP (fun _ => none)) (File.regular (bytes "1.1.1.1\n2.2.2.2\n")) 8
        (fun i => ⟨decide (i = 1 ∨ i = 2 ∨ i = 3), []⟩)
      = some (Except.ok [[16843009], [], [], [], [], [], [], []]) ∧
    (lines (bytes "1.1.1.1\n2.2.2.2\n")).filterMap (ParseIP (fun _ => none))
      = [16843009, 33686018] ∧
    ¬ (∀ a, a ∈ [[16843009], [], [], [], [], [], [], []].flatten ↔
        a ∈ (lines (bytes "1.1.1.1\n2.2.2.2\n")).filterMap (ParseIP (fun _ => none))) ∧
    DoFaulty (ParseIP (fun _ => none)) (File.regular (bytes "1.1.1.1\n2.2.2.2\n")) 1
        (fun _ => ⟨false, [8]⟩)
      = some (Except.ok [[16843009]]) ∧
    runCountFaulty (ParseIP (fun _ => none)) (bytes "1.1.1.1\n2.2.2.2\n") 1
        (fun _ => ⟨false, [8]⟩) = some 1 ∧
    runCountFaulty (ParseIP (fun _ => none)) (bytes "1.1.1.1\n2.2.2.2\n") 1
        (fun _ => ⟨false, []⟩) = some 2 := by
  have hlines : (lines (bytes "1.1.1.1\n2.2.2.2\n")).filterMap (ParseIP (fun _ => none))
      = [16843009, 33686018] := rfl
  refine ⟨Or.inr (Or.inr (by decide)), rfl, hlines, ?_, rfl, ?_, ?_⟩
  · intro h
    have h2 := (h 33686018).2 (by rw [hlines]; decide)
    revert h2
    decide
  · have hDo : DoFaulty (ParseIP (fun _ => none)) (File.regular (bytes "1.1.1.1\n2.2.2.2\n")) 1
        (fun _ => ⟨false, [8]⟩) = some (Except.ok [[16843009]]) := rfl
    rw [runCountFaulty, hDo]
    simp only
    rw [uniqueCount_eq _ (by decide)]
    decide
  · have hDo : DoFaulty (ParseIP (fun _ => none)) (File.regular (bytes "1.1.1.1\n2.2.2.2\n")) 1
        (fun _ => ⟨false, []⟩) = some (Except.ok [[16843009, 33686018]]) := rfl
    rw [runCountFaulty, hDo]
    simp only
    rw [uniqueCount_eq _ (by decide)]
    decide

end Loader

end Ipcounter
